import Mathlib

/-!
# Verification of the copy-git-ignore backup tool

This development gives a shallow embedding, in Lean 4, of the core of the
`copy-git-ignore` repository (a Go tool that mirrors git-ignored files into a
backup tree) and proves or refutes the specification claims about it.

Conventions of the embedding:

* Go strings are modelled as `List Char` (Go iterates strings byte/rune-wise;
  all characters involved here are ASCII, so a char list is faithful).
* Filesystem paths in the copy/backup pipeline are modelled as lists of path
  segments (`List String`); a filesystem is an association list from paths to
  nodes carrying a modification time (and file content), mirroring exactly the
  information the Go code consults (`os.Stat`, `ModTime`, `os.ReadDir`).
* Machine integers: the Go code uses `int` counters that never come close to
  overflow in the modelled scenarios; they are modelled as `Nat`.  Times
  (`time.Time` compared with `Before`/`Equal`/`After`) are modelled as `Int`.
* Fallible operations return `Option`/`Except`-style values.
-/

namespace CopyIgnore

/-! ## Part 1: the exclusion matcher (`src/exclude/exclude.go`)

Go strings are `List Char` here.  The functions below are direct translations
of `NewMatcher`, `ShouldExclude`, `matchesPattern`, `isAbsolutePathPattern`,
`matchesAbsolutePath`, `isSimpleDirPattern` and `extractDirFromPattern`,
together with models of the two library calls they make:
`filepath.Clean` (Windows flavour, composed with the subsequent
`strings.ReplaceAll(_, "\\", "/")`) and `doublestar.Match`.
-/

/-- A Go string: a list of characters. -/
abbrev GoStr := List Char

/-- `strings.ReplaceAll(s, "\\", "/")`: turn every backslash into a slash. -/
def slashNorm (s : GoStr) : GoStr :=
  s.map (fun c => if c = '\\' then '/' else c)

/-- Bool-valued list-prefix test (models Go `strings.HasPrefix`). -/
def hasPre (p s : GoStr) : Bool :=
  List.isPrefixOf p s

/-- Bool-valued list-suffix test (models Go `strings.HasSuffix`). -/
def hasSuf (p s : GoStr) : Bool :=
  List.isSuffixOf p s

/-- Models `strings.Contains(s, string(c))` for a one-character needle. -/
def goContains (s : GoStr) (c : Char) : Bool :=
  s.contains c

/-- `strings.ToLower` for ASCII-ish strings (models the case folding used by
`matchesAbsolutePath`). -/
def goToLower (s : GoStr) : GoStr :=
  s.map Char.toLower

/-- A path separator on Windows: `/` or `\` (Go `os.IsPathSeparator`). -/
def isSep (c : Char) : Bool :=
  c = '/' || c = '\\'

/-- Models Go `filepath` `volumeNameLen` on Windows for the path shapes the
tool handles: a drive-letter volume (`C:`) and a plain UNC volume
(`\\host\share` or `//host/share`).  The exotic device-path prefixes
(`\\.\`, `\\?\`) are not modelled; no pattern or path in this development
uses them. -/
def volumeNameLen (p : GoStr) : Nat :=
  if 2 ≤ p.length then
    if p.getD 1 ' ' = ':' then 2
    else if isSep (p.getD 0 ' ') && isSep (p.getD 1 ' ') then
      -- plain UNC: `\\host\share` — two separators, host, separator, share
      let rest := p.drop 2
      let host := rest.takeWhile (fun c => !isSep c)
      let afterHost := rest.drop host.length
      match afterHost with
      | [] => 2 + host.length
      | _ :: afterSep =>
          let share := afterSep.takeWhile (fun c => !isSep c)
          2 + host.length + 1 + share.length
    else 0
  else 0

/-- Split a character list on path separators (both `/` and `\`), keeping
empty chunks; `filepath.Clean` then discards the empty elements. -/
def splitSeps (s : GoStr) : List GoStr :=
  match s with
  | [] => [[]]
  | c :: rest =>
      let r := splitSeps rest
      if isSep c then [] :: r
      else
        match r with
        | [] => [[c]]
        | h :: t => (c :: h) :: t

/-- One step of `filepath.Clean`'s element processing: drop empty and `.`
elements, let `..` pop the previous real element (or vanish at a root, or
accumulate when relative). `acc` is the processed output in reverse order. -/
def cleanFold (rooted : Bool) (acc : List GoStr) (comp : GoStr) : List GoStr :=
  if comp = [] ∨ comp = ['.'] then acc
  else if comp = ['.', '.'] then
    match acc with
    | [] => if rooted then [] else [comp]
    | prev :: accT => if prev = ['.', '.'] then comp :: acc else accT
  else comp :: acc

/-- Join path components with `/`. -/
def joinSlash (comps : List GoStr) : GoStr :=
  (comps.intersperse ['/']).flatten

/-- Models `strings.ReplaceAll(filepath.Clean(path), "\\", "/")` — exactly the
normalisation `ShouldExclude` applies to a candidate path, on Windows:
volume detection, separator collapsing, `.`/`..` resolution, and `.` for the
empty result; `filepath.FromSlash` composed with the final backslash→slash
replacement leaves everything in forward-slash form. -/
def cleanToSlash (p : GoStr) : GoStr :=
  let volLen := volumeNameLen p
  let vol := slashNorm (p.take volLen)
  let rest := p.drop volLen
  if rest = [] then
    if 1 < volLen ∧ isSep (p.getD 0 ' ') ∧ isSep (p.getD 1 ' ') then
      slashNorm p
    else slashNorm p ++ ['.']
  else
    let rooted := isSep (rest.getD 0 ' ')
    let comps := splitSeps rest
    let outComps := (comps.foldl (cleanFold rooted) []).reverse
    let out :=
      if rooted then '/' :: joinSlash outComps
      else if outComps = [] then ['.']
      else joinSlash outComps
    vol ++ out

/-! ### `doublestar.Match`

The library call `doublestar.Match(pattern, name)` is modelled at the
path-segment level: both pattern and name are split on `/`; a `**` pattern
segment matches any number (including zero) of name segments — which also
realises the library's documented special case that a trailing `/**` (and a
leading `**/`) matches zero segments — and every other pattern segment is a
single-segment glob with `*`, `?` and `[...]` wildcards.  A malformed
pattern (unclosed `[`) makes the match fail, which is how the Go code treats
`doublestar`'s `ErrBadPattern` (non-match, never fatal). -/

/-- Split on `/` only (the separator `doublestar` uses). -/
def splitOnSlash (s : GoStr) : List GoStr :=
  match s with
  | [] => [[]]
  | c :: rest =>
      let r := splitOnSlash rest
      if c = '/' then [] :: r
      else
        match r with
        | [] => [[c]]
        | h :: t => (c :: h) :: t

/-- A token of a single-segment glob pattern. -/
inductive GlobTok where
  | star : GlobTok
  | qmark : GlobTok
  | lit (c : Char) : GlobTok
  | cls (neg : Bool) (ranges : List (Char × Char)) : GlobTok
  deriving DecidableEq

/-- Character-class items: single characters and `a-b` ranges. -/
def classRanges : GoStr → List (Char × Char)
  | a :: '-' :: b :: rest => (a, b) :: classRanges rest
  | a :: rest => (a, a) :: classRanges rest
  | [] => []

/-- Splits a character class right after its `[`: negation flag, class body,
and the remainder of the pattern after the closing `]`; `none` when the class
is unclosed. -/
def classSplit (r : GoStr) : Option (Bool × GoStr × GoStr) :=
  let neg : Bool :=
    match r with
    | '^' :: _ => true
    | '!' :: _ => true
    | _ => false
  let body : GoStr :=
    match r with
    | '^' :: t => t
    | '!' :: t => t
    | _ => r
  match body.findIdx? (· = ']') with
  | none => none
  | some i => some (neg, body.take i, body.drop (i + 1))

/-- Tokenise one glob segment (fuel-indexed for structural termination; the
wrapper supplies enough fuel); `none` on an unclosed `[` (a bad pattern). -/
def segToksF : Nat → GoStr → Option (List GlobTok)
  | _, [] => some []
  | 0, _ :: _ => none
  | fuel + 1, c :: r =>
      if c = '*' then (segToksF fuel r).map (GlobTok.star :: ·)
      else if c = '?' then (segToksF fuel r).map (GlobTok.qmark :: ·)
      else if c = '[' then
        match classSplit r with
        | none => none
        | some (neg, content, rest) =>
            (segToksF fuel rest).map (GlobTok.cls neg (classRanges content) :: ·)
      else (segToksF fuel r).map (GlobTok.lit c :: ·)

/-- Tokenise one glob segment. -/
def segToks (s : GoStr) : Option (List GlobTok) :=
  segToksF s.length s

/-- Match a token list against the characters of one name segment
(fuel-indexed for structural termination; the wrapper supplies
`tokens + characters + 1`, which always suffices). -/
def matchToksF : Nat → List GlobTok → GoStr → Bool
  | 0, _, _ => false
  | _ + 1, [], [] => true
  | _ + 1, [], _ :: _ => false
  | fuel + 1, GlobTok.star :: ts, ns =>
      matchToksF fuel ts ns ||
        (match ns with
         | [] => false
         | _ :: nt => matchToksF fuel (GlobTok.star :: ts) nt)
  | fuel + 1, GlobTok.qmark :: ts, ns =>
      match ns with
      | [] => false
      | _ :: nt => matchToksF fuel ts nt
  | fuel + 1, GlobTok.lit c :: ts, ns =>
      match ns with
      | [] => false
      | n :: nt => c = n && matchToksF fuel ts nt
  | fuel + 1, GlobTok.cls neg rs :: ts, ns =>
      match ns with
      | [] => false
      | n :: nt =>
          (neg != rs.any (fun r => r.1 ≤ n ∧ n ≤ r.2)) && matchToksF fuel ts nt

/-- Match one glob segment against one name segment. -/
def matchSeg (pat name : GoStr) : Bool :=
  match segToks pat with
  | none => false
  | some ts => matchToksF (ts.length + name.length + 1) ts name

/-- Segment-level matching with `**` (fuel-indexed): a `**` pattern segment
absorbs any number of name segments, including zero. -/
def matchGlobF : Nat → List GoStr → List GoStr → Bool
  | 0, _, _ => false
  | _ + 1, [], [] => true
  | _ + 1, [], _ :: _ => false
  | fuel + 1, p :: ps, ns =>
      if p = ['*', '*'] then
        matchGlobF fuel ps ns ||
          (match ns with
           | [] => false
           | _ :: nt => matchGlobF fuel (p :: ps) nt)
      else
        match ns with
        | [] => false
        | n :: nt => matchSeg p n && matchGlobF fuel ps nt

/-- Segment-level matching with `**`. -/
def matchGlob (ps ns : List GoStr) : Bool :=
  matchGlobF (ps.length + ns.length + 1) ps ns

/-- Model of `doublestar.Match pattern name` (both already forward-slashed). -/
def doublestarMatch (pattern name : GoStr) : Bool :=
  matchGlob (splitOnSlash pattern) (splitOnSlash name)

/-! ### The matcher itself -/

/-- `isAbsolutePathPattern`: drive-letter (`C:/` or `C:\`), UNC (`//`, `\\`),
or single leading slash. -/
def isAbsolutePathPattern (pattern : GoStr) : Bool :=
  (decide (3 ≤ pattern.length) && (pattern.getD 1 ' ' = ':') &&
     (pattern.getD 2 ' ' = '/' || pattern.getD 2 ' ' = '\\')) ||
  hasPre ['/', '/'] pattern || hasPre ['\\', '\\'] pattern ||
  hasPre ['/'] pattern

/-- `isSimpleDirPattern`: `*/name/*` or `*/name` with a wildcard-free name. -/
def isSimpleDirPattern (pattern : GoStr) : Bool :=
  if hasPre ['*', '/'] pattern then
    let remaining := pattern.drop 2
    if hasSuf ['/', '*'] remaining then
      let dirName := remaining.take (remaining.length - 2)
      decide (dirName ≠ []) && !goContains dirName '*' &&
        !goContains dirName '?' && !goContains dirName '['
    else if !goContains remaining '*' && !goContains remaining '?' &&
        !goContains remaining '[' then
      decide (remaining ≠ [])
    else false
  else false

/-- `extractDirFromPattern`: the literal directory name in a simple pattern. -/
def extractDirFromPattern (pattern : GoStr) : GoStr :=
  if hasPre ['*', '/'] pattern then
    let remaining := pattern.drop 2
    if hasSuf ['/', '*'] remaining then remaining.take (remaining.length - 2)
    else remaining
  else []

/-- The per-pattern normalisation performed by the loop body of `NewMatcher`:
slash conversion, then the absolute / wildcard / simple-directory / bare-name
case split.  (The Go code binds `slashNorm pattern` to a local `normalized`;
it is inlined here.) -/
def normalizeOne (pattern : GoStr) : GoStr :=
  if isAbsolutePathPattern (slashNorm pattern) then slashNorm pattern
  else if goContains (slashNorm pattern) '*' || goContains (slashNorm pattern) '?' ||
      goContains (slashNorm pattern) '[' then
    if isSimpleDirPattern (slashNorm pattern) then
      if extractDirFromPattern (slashNorm pattern) ≠ [] then
        ['*', '*', '/'] ++ extractDirFromPattern (slashNorm pattern) ++ ['/', '*', '*']
      else slashNorm pattern
    else if !goContains (slashNorm pattern) '/' then ['*', '*', '/'] ++ slashNorm pattern
    else slashNorm pattern
  else ['*', '*', '/'] ++ slashNorm pattern ++ ['/', '*', '*']

/-- `NewMatcher`: drop empty patterns, normalise the rest, in order.  (The Go
constructor can only return a matcher, never an error.) -/
def newMatcherPatterns (patterns : List GoStr) : List GoStr :=
  patterns.filterMap (fun p => if p = [] then none else some (normalizeOne p))

/-- `matchesAbsolutePath`: case-insensitive forward-slash prefix match. -/
def matchesAbsolutePath (path pattern : GoStr) : Bool :=
  hasPre (goToLower (slashNorm pattern)) (goToLower path)

/-- `matchesPattern`: absolute patterns by prefix, the rest by `doublestar`. -/
def matchesPattern (path pattern : GoStr) : Bool :=
  if isAbsolutePathPattern pattern then matchesAbsolutePath path pattern
  else doublestarMatch pattern path

/-- `ShouldExclude`: clean and slash-normalise the candidate path, then return
true on the first matching pattern. -/
def shouldExclude (patterns : List GoStr) (path : GoStr) : Bool :=
  if patterns = [] then false
  else
    let normalizedPath := cleanToSlash path
    patterns.any (fun pattern => matchesPattern normalizedPath pattern)

/-! ### Facts about pattern normalisation (towards claim C9) -/

theorem backslash_not_mem_slashNorm (p : GoStr) : '\\' ∉ slashNorm p := by
  intro hmem
  simp only [slashNorm, List.mem_map] at hmem
  obtain ⟨c, _, hc⟩ := hmem
  by_cases h : c = '\\' <;> simp [h] at hc

theorem slashNorm_of_not_mem {q : GoStr} (h : '\\' ∉ q) : slashNorm q = q := by
  induction q with
  | nil => rfl
  | cons c t ih =>
      simp only [List.mem_cons, not_or] at h
      simp only [slashNorm, List.map_cons]
      rw [if_neg (Ne.symm h.1)]
      have := ih h.2
      simpa [slashNorm] using this

theorem slashNorm_idem (p : GoStr) : slashNorm (slashNorm p) = slashNorm p :=
  slashNorm_of_not_mem (backslash_not_mem_slashNorm p)

theorem goContains_iff (s : GoStr) (c : Char) : goContains s c = true ↔ c ∈ s := by
  simp [goContains, List.elem_iff, List.contains]

theorem hasPre_iff (a b : GoStr) : hasPre a b = true ↔ a <+: b := by
  simp [hasPre, List.isPrefixOf_iff_prefix]

/-- A pattern starting with `**` is never an absolute-path pattern. -/
theorem isAbsolutePathPattern_starstar (r : GoStr) :
    isAbsolutePathPattern ('*' :: '*' :: r) = false := by
  simp [isAbsolutePathPattern, hasPre, List.isPrefixOf, List.getD]

/-- A pattern starting with `**` is never a simple directory pattern. -/
theorem isSimpleDirPattern_starstar (r : GoStr) :
    isSimpleDirPattern ('*' :: '*' :: r) = false := by
  have h : hasPre ['*', '/'] ('*' :: '*' :: r) = false := by
    simp [hasPre, List.isPrefixOf]
  simp [isSimpleDirPattern, h]

/-- A pattern of the shape `**/…` is left unchanged by `normalizeOne`, as
long as it contains no backslash. -/
theorem normalizeOne_starstar_slash (r : GoStr) (hr : '\\' ∉ r) :
    normalizeOne ('*' :: '*' :: '/' :: r) = '*' :: '*' :: '/' :: r := by
  have hsn : slashNorm ('*' :: '*' :: '/' :: r) = '*' :: '*' :: '/' :: r := by
    apply slashNorm_of_not_mem
    simp [hr]
  have habs : isAbsolutePathPattern ('*' :: '*' :: '/' :: r) = false :=
    isAbsolutePathPattern_starstar _
  have hsd : isSimpleDirPattern ('*' :: '*' :: '/' :: r) = false :=
    isSimpleDirPattern_starstar _
  have hstar : goContains ('*' :: '*' :: '/' :: r) '*' = true := by
    rw [goContains_iff]; simp
  have hslash : goContains ('*' :: '*' :: '/' :: r) '/' = true := by
    rw [goContains_iff]; simp
  simp [normalizeOne, hsn, habs, hsd, hstar, hslash]

/-- The characters of `extractDirFromPattern p` all occur in `p`. -/
theorem extractDirFromPattern_subset (p : GoStr) :
    ∀ c ∈ extractDirFromPattern p, c ∈ p := by
  intro c hc
  simp only [extractDirFromPattern] at hc
  split at hc
  · split at hc
    · exact List.drop_subset 2 p (List.take_subset _ _ hc)
    · exact List.drop_subset 2 p hc
  · simp at hc

/-- Normalising an already-normalised pattern changes nothing. -/
theorem normalizeOne_idem (p : GoStr) :
    normalizeOne (normalizeOne p) = normalizeOne p := by
  by_cases habs : isAbsolutePathPattern (slashNorm p) = true
  · have h1 : normalizeOne p = slashNorm p := by simp [normalizeOne, habs]
    rw [h1]
    simp [normalizeOne, slashNorm_idem, habs]
  · rw [Bool.not_eq_true] at habs
    by_cases hw : (goContains (slashNorm p) '*' || goContains (slashNorm p) '?' ||
        goContains (slashNorm p) '[') = true
    · by_cases hsd : isSimpleDirPattern (slashNorm p) = true
      · by_cases hd : extractDirFromPattern (slashNorm p) ≠ []
        · have h1 : normalizeOne p =
              ['*', '*', '/'] ++ extractDirFromPattern (slashNorm p) ++ ['/', '*', '*'] := by
            simp [normalizeOne, habs, hw, hsd, hd]
          rw [h1]
          have hnb : '\\' ∉ extractDirFromPattern (slashNorm p) ++ ['/', '*', '*'] := by
            intro hmem
            rcases List.mem_append.mp hmem with h | h
            · exact backslash_not_mem_slashNorm p (extractDirFromPattern_subset _ _ h)
            · simp at h
          simpa using normalizeOne_starstar_slash
            (extractDirFromPattern (slashNorm p) ++ ['/', '*', '*']) hnb
        · have h1 : normalizeOne p = slashNorm p := by
            simp [normalizeOne, habs, hw, hsd, hd]
          rw [h1]
          simp only [not_not] at hd
          simp [normalizeOne, slashNorm_idem, habs, hw, hsd, hd]
      · by_cases hns : (!goContains (slashNorm p) '/') = true
        · have h1 : normalizeOne p = ['*', '*', '/'] ++ slashNorm p := by
            simp [normalizeOne, habs, hw, hsd, hns]
          rw [h1]
          exact normalizeOne_starstar_slash (slashNorm p) (backslash_not_mem_slashNorm p)
        · have h1 : normalizeOne p = slashNorm p := by
            simp [normalizeOne, habs, hw, hsd, hns]
          rw [h1]
          simp only [Bool.not_eq_true, Bool.not_eq_false] at hns
          simp [normalizeOne, slashNorm_idem, habs, hw, hsd, hns]
    · have h1 : normalizeOne p = ['*', '*', '/'] ++ slashNorm p ++ ['/', '*', '*'] := by
        simp [normalizeOne, habs, hw]
      rw [h1]
      have hnb : '\\' ∉ slashNorm p ++ ['/', '*', '*'] := by
        intro hmem
        rcases List.mem_append.mp hmem with h | h
        · exact backslash_not_mem_slashNorm p h
        · simp at h
      simpa using normalizeOne_starstar_slash (slashNorm p ++ ['/', '*', '*']) hnb

/-- A normalised pattern is never empty. -/
theorem normalizeOne_ne_nil (p : GoStr) (hp : p ≠ []) : normalizeOne p ≠ [] := by
  have hsn : slashNorm p ≠ [] := by
    simp [slashNorm]
    exact hp
  by_cases habs : isAbsolutePathPattern (slashNorm p) = true
  · simpa [normalizeOne, habs] using hsn
  · rw [Bool.not_eq_true] at habs
    by_cases hw : (goContains (slashNorm p) '*' || goContains (slashNorm p) '?' ||
        goContains (slashNorm p) '[') = true
    · by_cases hsd : isSimpleDirPattern (slashNorm p) = true
      · by_cases hd : extractDirFromPattern (slashNorm p) ≠ []
        · simp [normalizeOne, habs, hw, hsd, hd]
        · simpa [normalizeOne, habs, hw, hsd, hd] using hsn
      · by_cases hns : (!goContains (slashNorm p) '/') = true
        · simp [normalizeOne, habs, hw, hsd, hns]
        · simpa [normalizeOne, habs, hw, hsd, hns] using hsn
    · have h1 : normalizeOne p = ['*', '*', '/'] ++ slashNorm p ++ ['/', '*', '*'] := by
        simp [normalizeOne, habs, hw]
      simp [h1]

/-- Claim C9 — Pattern normalisation performed at matcher construction is
idempotent: re-running `NewMatcher` on the patterns it produced returns
exactly the same patterns. -/
theorem C9_matcher_normalization_idempotent (patterns : List GoStr) :
    newMatcherPatterns (newMatcherPatterns patterns) = newMatcherPatterns patterns := by
  induction patterns with
  | nil => rfl
  | cons p t ih =>
      by_cases hp : p = []
      · simpa [newMatcherPatterns, hp] using ih
      · have hstep : newMatcherPatterns (p :: t) =
            normalizeOne p :: newMatcherPatterns t := by
          simp [newMatcherPatterns, hp]
        rw [hstep]
        have hne := normalizeOne_ne_nil p hp
        calc newMatcherPatterns (normalizeOne p :: newMatcherPatterns t)
            = normalizeOne (normalizeOne p) :: newMatcherPatterns (newMatcherPatterns t) := by
              simp [newMatcherPatterns, hne]
          _ = normalizeOne p :: newMatcherPatterns t := by
              rw [normalizeOne_idem, ih]

/-! ### Claim C7: absolute patterns -/

/-- Claim C7 (amended) — For a matcher built from a single absolute pattern
`p`, `ShouldExclude x` is the case-folded slash-normalised prefix test,
*provided `x` is unchanged by path cleaning* (`filepath.Clean` composed with
slash conversion).  The cleaning step is why the claim as stated fails: the
candidate path is cleaned before the prefix comparison, the pattern is not. -/
theorem C7_absolute_pattern_prefix (p x : GoStr)
    (hA : isAbsolutePathPattern (slashNorm p) = true)
    (hx : cleanToSlash x = slashNorm x) :
    shouldExclude (newMatcherPatterns [p]) x =
      hasPre (goToLower (slashNorm p)) (goToLower (slashNorm x)) := by
  have hp : p ≠ [] := by
    intro h
    rw [h] at hA
    simp [slashNorm, isAbsolutePathPattern, hasPre, List.isPrefixOf] at hA
  have hm : newMatcherPatterns [p] = [slashNorm p] := by
    simp [newMatcherPatterns, hp, normalizeOne, hA]
  rw [hm]
  simp only [shouldExclude, matchesPattern]
  rw [if_neg (by simp)]
  simp only [List.any_cons, List.any_nil, Bool.or_false]
  rw [if_pos hA]
  simp only [matchesAbsolutePath, slashNorm_idem, hx]

/-- Witness for C7 at a concrete clean input. -/
theorem C7_absolute_pattern_prefix_witness :
    cleanToSlash "/a/b".toList = slashNorm "/a/b".toList ∧
      shouldExclude (newMatcherPatterns ["/a".toList]) "/a/b".toList =
        hasPre (goToLower (slashNorm "/a".toList)) (goToLower (slashNorm "/a/b".toList)) :=
  ⟨by decide, C7_absolute_pattern_prefix "/a".toList "/a/b".toList (by decide) (by decide)⟩

/-- Counterexample to claim C7 as stated: with the absolute pattern `/a` and
the path `/./a`, `ShouldExclude` returns true (the path is cleaned to `/a`
first), yet the path's case-folded slash-normalised form `/./a` does not
start with the pattern's form `/a` — the claimed equivalence is false. -/
theorem C7_absolute_pattern_counterexample :
    shouldExclude (newMatcherPatterns ["/a".toList]) "/./a".toList = true ∧
      hasPre (goToLower (slashNorm "/a".toList)) (goToLower (slashNorm "/./a".toList)) =
        false := by
  constructor <;> decide

/-! ### Claim C6: bare-name patterns match full segments at any depth

The quantification is over paths presented as lists of ordinary segments:
nonempty, not `.` or `..`, and free of separators and the drive colon — i.e.
paths that `filepath.Clean` leaves alone. -/

/-- An ordinary path segment. -/
def goodSeg (s : GoStr) : Prop :=
  s ≠ [] ∧ s ≠ ['.'] ∧ s ≠ ['.', '.'] ∧ ∀ c ∈ s, c ≠ '/' ∧ c ≠ '\\' ∧ c ≠ ':'

instance (s : GoStr) : Decidable (goodSeg s) := by
  unfold goodSeg; infer_instance

theorem joinSlash_cons_eq (s : GoStr) (t : List GoStr) :
    joinSlash (s :: t) = s ++ (if t = [] then [] else '/' :: joinSlash t) := by
  cases t with
  | nil => simp [joinSlash]
  | cons b t' => simp [joinSlash]

theorem mem_joinSlash (segs : List GoStr) (c : Char) (h : c ∈ joinSlash segs) :
    c = '/' ∨ ∃ s ∈ segs, c ∈ s := by
  induction segs with
  | nil => simp [joinSlash] at h
  | cons s t ih =>
      rw [joinSlash_cons_eq] at h
      rcases List.mem_append.mp h with h1 | h1
      · exact Or.inr ⟨s, by simp, h1⟩
      · by_cases ht : t = []
        · simp [ht] at h1
        · rw [if_neg ht] at h1
          rcases List.mem_cons.mp h1 with h2 | h2
          · exact Or.inl h2
          · rcases ih h2 with h3 | ⟨u, hu, hc⟩
            · exact Or.inl h3
            · exact Or.inr ⟨u, by simp [hu], hc⟩

theorem joinSlash_ne_nil (s : GoStr) (t : List GoStr) (hs : s ≠ []) :
    joinSlash (s :: t) ≠ [] := by
  rw [joinSlash_cons_eq]
  simp [hs]

theorem volumeNameLen_joinSlash (segs : List GoStr) (hne : segs ≠ [])
    (hgood : ∀ s ∈ segs, goodSeg s) : volumeNameLen (joinSlash segs) = 0 := by
  have h1 : ¬ (joinSlash segs).getD 1 ' ' = ':' := by
    by_cases hlen : 1 < (joinSlash segs).length
    · have hmem : (joinSlash segs).getD 1 ' ' ∈ joinSlash segs := by
        rw [List.getD_eq_getElem _ _ hlen]
        exact List.getElem_mem hlen
      rcases mem_joinSlash _ _ hmem with h | ⟨s, hs, hc⟩
      · rw [h]; decide
      · exact ((hgood s hs).2.2.2 _ hc).2.2
    · rw [List.getD_eq_default _ _ (by omega)]
      decide
  have h0 : isSep ((joinSlash segs).getD 0 ' ') = false := by
    rcases segs with _ | ⟨s, t⟩
    · exact absurd rfl hne
    · rcases s with _ | ⟨c, s'⟩
      · exact absurd rfl (hgood [] (by simp)).1
      · have := ((hgood (c :: s') (by simp)).2.2.2 c (by simp))
        rw [joinSlash_cons_eq]
        simp [isSep, this.1, this.2.1, List.getD_cons_zero]
  simp only [List.getD_eq_getElem?_getD] at h0 h1
  simp [volumeNameLen, h0, h1]

theorem splitSeps_of_no_sep (s : GoStr) (h : ∀ c ∈ s, isSep c = false) :
    splitSeps s = [s] := by
  induction s with
  | nil => rfl
  | cons c r ih =>
      have hc := h c (by simp)
      have hr := ih (fun c hc => h c (by simp [hc]))
      simp [splitSeps, hc, hr]

theorem splitSeps_append (a b : GoStr) (ha : ∀ c ∈ a, isSep c = false) :
    splitSeps (a ++ '/' :: b) = a :: splitSeps b := by
  induction a with
  | nil => simp [splitSeps, isSep]
  | cons c a' ih =>
      have hc := ha c (by simp)
      have := ih (fun c hc => ha c (by simp [hc]))
      simp [splitSeps, hc, this]

theorem splitSeps_joinSlash (segs : List GoStr) (hne : segs ≠ [])
    (h : ∀ s ∈ segs, ∀ c ∈ s, isSep c = false) :
    splitSeps (joinSlash segs) = segs := by
  induction segs with
  | nil => exact absurd rfl hne
  | cons s t ih =>
      cases t with
      | nil =>
          have := splitSeps_of_no_sep s (h s (by simp))
          simpa [joinSlash_cons_eq] using this
      | cons b t' =>
          rw [joinSlash_cons_eq, if_neg (by simp)]
          rw [splitSeps_append s _ (h s (by simp))]
          rw [ih (by simp) (fun u hu => h u (by simp [hu]))]

theorem foldl_cleanFold (l : List GoStr) (rooted : Bool) (acc : List GoStr)
    (h : ∀ s ∈ l, s ≠ [] ∧ s ≠ ['.'] ∧ s ≠ ['.', '.']) :
    l.foldl (cleanFold rooted) acc = l.reverse ++ acc := by
  induction l generalizing acc with
  | nil => rfl
  | cons s t ih =>
      obtain ⟨h1, h2, h3⟩ := h s (by simp)
      have hstep : cleanFold rooted acc s = s :: acc := by
        simp [cleanFold, h1, h2, h3]
      simp only [List.foldl_cons, hstep]
      rw [ih _ (fun u hu => h u (by simp [hu]))]
      simp

theorem cleanToSlash_joinSlash (segs : List GoStr) (hne : segs ≠ [])
    (hgood : ∀ s ∈ segs, goodSeg s) :
    cleanToSlash (joinSlash segs) = joinSlash segs := by
  have hvol := volumeNameLen_joinSlash segs hne hgood
  have hrne : joinSlash segs ≠ [] := by
    rcases segs with _ | ⟨s, t⟩
    · exact absurd rfl hne
    · exact joinSlash_ne_nil s t (hgood s (by simp)).1
  have h0 : isSep ((joinSlash segs).getD 0 ' ') = false := by
    rcases segs with _ | ⟨s, t⟩
    · exact absurd rfl hne
    · rcases s with _ | ⟨c, s'⟩
      · exact absurd rfl (hgood [] (by simp)).1
      · have := ((hgood (c :: s') (by simp)).2.2.2 c (by simp))
        rw [joinSlash_cons_eq]
        simp [isSep, this.1, this.2.1, List.getD_cons_zero]
  have hsplit : splitSeps (joinSlash segs) = segs := by
    apply splitSeps_joinSlash segs hne
    intro s hs c hc
    have := (hgood s hs).2.2.2 c hc
    simp [isSep, this.1, this.2.1]
  have hnb : '\\' ∉ joinSlash segs := by
    intro hmem
    rcases mem_joinSlash _ _ hmem with h | ⟨s, hs, hc⟩
    · simp at h
    · exact ((hgood s hs).2.2.2 _ hc).2.1 rfl
  have hfold : ∀ rooted : Bool,
      (segs.foldl (cleanFold rooted) []).reverse = segs := by
    intro rooted
    rw [foldl_cleanFold segs rooted []
      (fun s hs => ⟨(hgood s hs).1, (hgood s hs).2.1, (hgood s hs).2.2.1⟩)]
    simp
  simp only [cleanToSlash, hvol, List.take_zero, List.drop_zero]
  rw [if_neg hrne, hsplit]
  simp only [h0, Bool.false_eq_true, if_false]
  rw [hfold]
  rw [if_neg hne]
  simp [slashNorm]

/-! #### Glob matching of a literal name -/

theorem segToksF_lit (p : GoStr) (fuel : Nat) (hf : p.length ≤ fuel)
    (h : ∀ c ∈ p, c ≠ '*' ∧ c ≠ '?' ∧ c ≠ '[') :
    segToksF fuel p = some (p.map GlobTok.lit) := by
  induction p generalizing fuel with
  | nil => cases fuel <;> rfl
  | cons c r ih =>
      cases fuel with
      | zero => simp at hf
      | succ f =>
          obtain ⟨h1, h2, h3⟩ := h c (by simp)
          have hr := ih f (by simpa using hf) (fun c hc => h c (by simp [hc]))
          simp [segToksF, h1, h2, h3, hr]

theorem matchToksF_lit (p : GoStr) (n : GoStr) (fuel : Nat)
    (hf : p.length + n.length < fuel) :
    (matchToksF fuel (p.map GlobTok.lit) n = true) ↔ p = n := by
  induction p generalizing n fuel with
  | nil =>
      cases fuel with
      | zero => omega
      | succ f =>
          cases n with
          | nil => simp [matchToksF]
          | cons m nt => simp [matchToksF]
  | cons c r ih =>
      cases fuel with
      | zero => omega
      | succ f =>
          cases n with
          | nil => simp [matchToksF]
          | cons m nt =>
              have := ih nt f (by simp at hf ⊢; omega)
              simp [matchToksF, this, List.cons.injEq]

theorem matchSeg_lit (p n : GoStr) (h : ∀ c ∈ p, c ≠ '*' ∧ c ≠ '?' ∧ c ≠ '[') :
    (matchSeg p n = true) ↔ p = n := by
  have htoks : segToks p = some (p.map GlobTok.lit) :=
    segToksF_lit p p.length le_rfl h
  rw [matchSeg, htoks]
  exact matchToksF_lit p n _ (by simp)

theorem matchGlobF_trailing_dstar (ns : List GoStr) (fuel : Nat)
    (hf : ns.length + 2 ≤ fuel) :
    matchGlobF fuel [['*', '*']] ns = true := by
  induction ns generalizing fuel with
  | nil =>
      match fuel, hf with
      | f + 2, _ => simp [matchGlobF]
  | cons n nt ih =>
      match fuel, hf with
      | f + 1, hf =>
          have := ih f (by simp at hf ⊢; omega)
          simp [matchGlobF, this]

theorem matchGlobF_lit_dstar_nil (p : GoStr) (fuel : Nat)
    (hp : p ≠ ['*', '*']) (hf : 1 ≤ fuel) :
    matchGlobF fuel [p, ['*', '*']] [] = false := by
  match fuel, hf with
  | f + 1, _ => simp [matchGlobF, hp]

theorem matchGlobF_lit_dstar_cons (p n : GoStr) (nt : List GoStr) (fuel : Nat)
    (hp : p ≠ ['*', '*']) (hlit : ∀ c ∈ p, c ≠ '*' ∧ c ≠ '?' ∧ c ≠ '[')
    (hf : nt.length + 3 ≤ fuel) :
    (matchGlobF fuel [p, ['*', '*']] (n :: nt) = true) ↔ p = n := by
  match fuel, hf with
  | f + 1, hf =>
      have h1 := matchSeg_lit p n hlit
      have h2 := matchGlobF_trailing_dstar nt f (by omega)
      simp [matchGlobF, hp, h1, h2]

theorem matchGlobF_dstar_lit_dstar (p : GoStr) (ns : List GoStr) (fuel : Nat)
    (hp : p ≠ ['*', '*']) (hlit : ∀ c ∈ p, c ≠ '*' ∧ c ≠ '?' ∧ c ≠ '[')
    (hf : ns.length + 4 ≤ fuel) :
    (matchGlobF fuel [['*', '*'], p, ['*', '*']] ns = true) ↔ p ∈ ns := by
  induction ns generalizing fuel with
  | nil =>
      match fuel, hf with
      | f + 1, hf =>
          have h1 : matchGlobF f [p, ['*', '*']] [] = false :=
            matchGlobF_lit_dstar_nil p f hp (by omega)
          simp [matchGlobF, h1]
  | cons n nt ih =>
      match fuel, hf with
      | f + 1, hf =>
          have h1 := matchGlobF_lit_dstar_cons p n nt f hp hlit
            (by simp at hf ⊢; omega)
          have h2 := ih f (by simp at hf ⊢; omega)
          have hsplit : matchGlobF (f + 1) [['*', '*'], p, ['*', '*']] (n :: nt) =
              (matchGlobF f [p, ['*', '*']] (n :: nt) ||
                matchGlobF f [['*', '*'], p, ['*', '*']] nt) := by
            simp [matchGlobF]
          rw [hsplit, Bool.or_eq_true]
          constructor
          · rintro (h | h)
            · simp [h1.mp h]
            · simp [h2.mp h]
          · intro h
            rcases List.mem_cons.mp h with h | h
            · exact Or.inl (h1.mpr h)
            · exact Or.inr (h2.mpr h)

theorem splitOnSlash_of_no_slash (s : GoStr) (h : '/' ∉ s) :
    splitOnSlash s = [s] := by
  induction s with
  | nil => rfl
  | cons c r ih =>
      have hc : ¬ c = '/' := fun hc => h (by simp [hc])
      have hr := ih (fun hm => h (by simp [hm]))
      simp [splitOnSlash, hc, hr]

theorem splitOnSlash_append (a b : GoStr) (ha : '/' ∉ a) :
    splitOnSlash (a ++ '/' :: b) = a :: splitOnSlash b := by
  induction a with
  | nil => simp [splitOnSlash]
  | cons c a' ih =>
      have hc : ¬ c = '/' := fun hc => ha (by simp [hc])
      have := ih (fun hm => ha (by simp [hm]))
      simp [splitOnSlash, hc, this]

theorem splitOnSlash_joinSlash (segs : List GoStr) (hne : segs ≠ [])
    (h : ∀ s ∈ segs, '/' ∉ s) :
    splitOnSlash (joinSlash segs) = segs := by
  induction segs with
  | nil => exact absurd rfl hne
  | cons s t ih =>
      cases t with
      | nil =>
          have := splitOnSlash_of_no_slash s (h s (by simp))
          simpa [joinSlash_cons_eq] using this
      | cons b t' =>
          rw [joinSlash_cons_eq, if_neg (by simp)]
          rw [splitOnSlash_append s _ (h s (by simp))]
          rw [ih (by simp) (fun u hu => h u (by simp [hu]))]

theorem isAbsolutePathPattern_of_good (p : GoStr) (hp : p ≠ [])
    (hchars : ∀ c ∈ p, c ≠ '/' ∧ c ≠ '\\' ∧ c ≠ ':') :
    isAbsolutePathPattern p = false := by
  rcases p with _ | ⟨c, r⟩
  · exact absurd rfl hp
  · have hc := hchars c (by simp)
    cases r with
    | nil =>
        simp [isAbsolutePathPattern, hasPre, List.isPrefixOf, hc.1, hc.2.1,
          Ne.symm hc.1, Ne.symm hc.2.1]
    | cons c' r' =>
        have hc' := hchars c' (by simp)
        simp [isAbsolutePathPattern, hasPre, List.isPrefixOf, hc.1, hc.2.1,
          Ne.symm hc.1, Ne.symm hc.2.1, hc'.2.2]

/-- The `NewMatcher` rewrite of a bare (wildcard- and separator-free) name:
`p` becomes `**/p/**`. -/
theorem newMatcher_bare (p : GoStr) (hp : p ≠ [])
    (hchars : ∀ c ∈ p, c ≠ '/' ∧ c ≠ '\\' ∧ c ≠ ':')
    (hw : ∀ c ∈ p, c ≠ '*' ∧ c ≠ '?' ∧ c ≠ '[') :
    newMatcherPatterns [p] = [['*', '*', '/'] ++ p ++ ['/', '*', '*']] := by
  have hsn : slashNorm p = p :=
    slashNorm_of_not_mem (fun hm => (hchars _ hm).2.1 rfl)
  have habs : isAbsolutePathPattern (slashNorm p) = false := by
    rw [hsn]; exact isAbsolutePathPattern_of_good p hp hchars
  have hw1 : goContains p '*' = false := by
    rw [← Bool.not_eq_true, goContains_iff]
    exact fun hm => (hw _ hm).1 rfl
  have hw2 : goContains p '?' = false := by
    rw [← Bool.not_eq_true, goContains_iff]
    exact fun hm => (hw _ hm).2.1 rfl
  have hw3 : goContains p '[' = false := by
    rw [← Bool.not_eq_true, goContains_iff]
    exact fun hm => (hw _ hm).2.2 rfl
  have habs' : isAbsolutePathPattern p = false := by rw [← hsn]; exact habs
  simp [newMatcherPatterns, hp, normalizeOne, hsn, habs', hw1, hw2, hw3]

/-- Claim C6 — A wildcard- and separator-free exclusion pattern `p` is
rewritten to `**/p/**`, and the matcher then excludes exactly the paths that
contain `p` as a complete segment, at any depth; in particular a path whose
corresponding segment merely extends `p` (e.g. `p-suffix`) is not excluded.
Paths are quantified as nonempty lists of ordinary segments rendered with
`/` separators. -/
theorem C6_bare_name_matches_segment (p : GoStr) (segs : List GoStr)
    (hp : goodSeg p) (hpw : ∀ c ∈ p, c ≠ '*' ∧ c ≠ '?' ∧ c ≠ '[')
    (hne : segs ≠ []) (hgood : ∀ s ∈ segs, goodSeg s) :
    (shouldExclude (newMatcherPatterns [p]) (joinSlash segs) = true ↔ p ∈ segs) := by
  obtain ⟨hpne, _, _, hpchars⟩ := hp
  rw [newMatcher_bare p hpne hpchars hpw]
  have hclean := cleanToSlash_joinSlash segs hne hgood
  have hnabs : isAbsolutePathPattern (['*', '*', '/'] ++ p ++ ['/', '*', '*']) = false :=
    isAbsolutePathPattern_starstar _
  simp only [shouldExclude, List.any_cons, List.any_nil, Bool.or_false,
    matchesPattern, hclean, hnabs, Bool.false_eq_true, if_false,
    reduceCtorEq]
  have hpat : splitOnSlash (['*', '*', '/'] ++ p ++ ['/', '*', '*']) =
      [['*', '*'], p, ['*', '*']] := by
    have e1 : ['*', '*', '/'] ++ p ++ ['/', '*', '*'] =
        ['*', '*'] ++ '/' :: (p ++ '/' :: ['*', '*']) := by simp
    rw [e1, splitOnSlash_append _ _ (by decide),
      splitOnSlash_append p _ (fun hm => (hpchars _ hm).1 rfl),
      splitOnSlash_of_no_slash _ (by decide)]
  have hname : splitOnSlash (joinSlash segs) = segs :=
    splitOnSlash_joinSlash segs hne (fun s hs hm => ((hgood s hs).2.2.2 _ hm).1 rfl)
  rw [doublestarMatch, hpat, hname, matchGlob]
  have hpstar : p ≠ ['*', '*'] := by
    intro h
    exact (hpw '*' (by simp [h])).1 rfl
  exact matchGlobF_dstar_lit_dstar p segs _ hpstar hpw (by simp; omega)

/-- Witness for C6: pattern `vendor` excludes `a/vendor/b` (the name occurs
as a full segment) and the membership equivalence holds there. -/
theorem C6_bare_name_matches_segment_witness :
    (shouldExclude (newMatcherPatterns ["vendor".toList])
        (joinSlash ["a".toList, "vendor".toList, "b".toList]) = true ↔
      "vendor".toList ∈ ["a".toList, "vendor".toList, "b".toList]) :=
  C6_bare_name_matches_segment "vendor".toList
    ["a".toList, "vendor".toList, "b".toList]
    (by decide) (by decide) (by decide) (by decide)

/-! ## Part 2: the filesystem model and the copy/backup pipeline

Paths in the pipeline are lists of segments (`FPath`).  A filesystem is an
association list from paths to nodes; the first association for a path wins,
so overwriting may shadow an older entry.  The model carries exactly what the
Go code consults: existence, kind (`IsDir`), modification time (`ModTime`,
an `Int`), direct children (`os.ReadDir`, sorted by name), and file content.
Everything runs on one volume: `os.Rename` fails only when its source is
missing or its target is an existing directory (Windows `MoveFileEx`
semantics), and disk-I/O failures are not modelled. -/

/-- A filesystem path: a list of segments. -/
abbrev FPath := List String

/-- Bool-valued path prefix test (`p` is an ancestor of, or equal to, `q`). -/
def isPre (p q : FPath) : Bool :=
  List.isPrefixOf p q

/-- A filesystem node. -/
inductive FNode where
  | file (mtime : Int) (content : String) : FNode
  | dir (mtime : Int) : FNode
  deriving DecidableEq

/-- `ModTime`. -/
def FNode.mtime : FNode → Int
  | file m _ => m
  | dir m => m

/-- `IsDir`. -/
def FNode.isDir : FNode → Bool
  | file _ _ => false
  | dir _ => true

/-- A filesystem. -/
abbrev Fs := List (FPath × FNode)

/-- `os.Stat`: the first association for the path, if any. -/
def fstat (fs : Fs) (p : FPath) : Option FNode :=
  match fs.find? (fun e => e.1 = p) with
  | some e => some e.2
  | none => none

/-- Create or overwrite the node at `p`. -/
def fsSet (fs : Fs) (p : FPath) (n : FNode) : Fs :=
  (p, n) :: fs

/-- `os.RemoveAll`: drop `p` and everything below it. -/
def fsRemoveAll (fs : Fs) (p : FPath) : Fs :=
  fs.filter (fun e => !isPre p e.1)

/-- `os.MkdirAll`: create every missing ancestor of `p` (and `p` itself) as a
directory with the current time.  (The error Go raises when an ancestor
exists as a file is not modelled; such an ancestor is left untouched, and the
theorems below exclude that situation by hypothesis.) -/
def mkdirAll (now : Int) (fs : Fs) (p : FPath) : Fs :=
  (p.inits.filter (fun q => q ≠ [])).foldl
    (fun acc q => if fstat acc q = none then fsSet acc q (FNode.dir now) else acc) fs

/-- `os.Rename` on one volume: move the subtree at `src` onto `target`,
failing when `src` is missing.  (Failure modes beyond a missing source —
such as renaming onto an existing directory on Windows — are not modelled;
no modelled scenario renames onto an existing path.) -/
def fsRename (fs : Fs) (src target : FPath) : Option Fs :=
  match fstat fs src with
  | none => none
  | some _ =>
      some ((fs.filter (fun e => !isPre src e.1 && !isPre target e.1)) ++
        ((fs.filter (fun e => isPre src e.1)).map
          (fun e => (target ++ e.1.drop src.length, e.2))))

/-- Lexicographic `≤` on character lists, by code point (Go's byte-wise
string order restricted to the ASCII names used here). -/
def charListLe : List Char → List Char → Bool
  | [], _ => true
  | _ :: _, [] => false
  | a :: as, b :: bs =>
      if a.toNat < b.toNat then true
      else if b.toNat < a.toNat then false
      else charListLe as bs

/-- Lexicographic `≤` on strings. -/
def strLe (a b : String) : Bool :=
  charListLe a.toList b.toList

/-- Insertion into a descending list of names (`sort.Sort(sort.Reverse(...))`
on strings). -/
def insertDescStr (x : String) : List String → List String
  | [] => [x]
  | y :: t => if strLe y x then x :: y :: t else y :: insertDescStr x t

/-- Sort names in descending order. -/
def sortDescStr (l : List String) : List String :=
  l.foldr insertDescStr []

/-- Insertion into an ascending list of names. -/
def insertAscStr (x : String) : List String → List String
  | [] => [x]
  | y :: t => if strLe x y then x :: y :: t else y :: insertAscStr x t

/-- Sort names in ascending order (`os.ReadDir` returns entries sorted by
file name). -/
def sortAscStr (l : List String) : List String :=
  l.foldr insertAscStr []

/-- Drop duplicate names, keeping first occurrences (`seen` accumulates). -/
def dedupAcc : List String → List String → List String
  | _, [] => []
  | seen, x :: t =>
      if x ∈ seen then dedupAcc seen t else x :: dedupAcc (x :: seen) t

/-- `os.ReadDir`, names only: the direct children of `p`, sorted.  (An entry
shadowed by a later `fsSet` of the same path contributes the same name, so
duplicates are dropped.) -/
def childNames (fs : Fs) (p : FPath) : List String :=
  sortAscStr (dedupAcc [] (fs.filterMap (fun e =>
    if e.1.dropLast = p ∧ e.1 ≠ [] then e.1.getLast? else none)))

/-- The last segment of a path (`""` for the empty path). -/
def lastSeg (p : FPath) : String :=
  p.getLastD ""

/-- `destPath + ".tmp"`: the sibling temporary path used for atomic writes. -/
def tmpPath (p : FPath) : FPath :=
  p.dropLast ++ [lastSeg p ++ ".tmp"]

/-! ### The backup helpers (`src/helpers/backup_helper.go`) -/

/-- The relevant configuration fields (`src/config/config.go`). -/
structure Config where
  BackupRoot : FPath
  BackupDirs : List FPath
  BackupKeep : Nat
  BackupSubdir : String
  HistoryDir : FPath
  Timestamp : String
  deriving DecidableEq

/-- `Config.HandleHistoryDir`: the history base for a backup directory —
`HistoryDir` (if set, else `currentDir/BackupSubdir`) joined with the run
timestamp. -/
def handleHistoryDir (cfg : Config) (currentDir : FPath) : FPath :=
  (if cfg.HistoryDir ≠ [] then cfg.HistoryDir
   else currentDir ++ [cfg.BackupSubdir]) ++ [cfg.Timestamp]

/-- `moveToBackup`: move `src` to `destBase/timestamp/relPath`, creating the
parent directories first.  (The Go fallback to copy-plus-delete on a failed
rename is not reachable in this one-volume model: here a rename fails only
when `src` is missing or the target is an existing directory, and in both
cases the fallback fails as well, so the failure is surfaced directly.) -/
def moveToBackup (now : Int) (fs : Fs) (src destBase relPath : FPath)
    (timestamp : String) : Option Fs :=
  let backupTarget := destBase ++ [timestamp] ++ relPath
  let fs1 := mkdirAll now fs backupTarget.dropLast
  fsRename fs1 src backupTarget

/-- `listTimestampedDirs`: the child directories of `dir` whose name is 15
characters long and contains a `-`; an absent `dir` yields the empty list, a
non-directory is a read error. -/
def listTimestampedDirs (fs : Fs) (dir : FPath) : Option (List String) :=
  match fstat fs dir with
  | none => some []
  | some (FNode.file _ _) => none
  | some (FNode.dir _) =>
      some ((childNames fs dir).filter (fun name =>
        ((fstat fs (dir ++ [name])).elim false FNode.isDir) &&
          name.length = 15 && name.contains '-'))

/-- `pruneBackups`: list the timestamp directories under `destBase/relPath`,
keep the `keep` most recent, remove the rest. -/
def pruneBackups (fs : Fs) (destBase relPath : FPath) (keep : Nat) :
    Option Fs :=
  let backupDir := destBase ++ relPath
  match listTimestampedDirs fs backupDir with
  | none => none
  | some timestamps =>
      if timestamps.length ≤ keep then some fs
      else
        some (((sortDescStr timestamps).drop keep).foldl
          (fun acc name => fsRemoveAll acc (backupDir ++ [name])) fs)

/-- The per-file backup loop of `CleanupDeletedSrcFiles` (lines 79–108): for
the first non-empty backup directory, move the target into the history base
and prune, then stop; a failed move falls through to the next directory. -/
def cleanupBackupDirs (cfg : Config) (now : Int) (fs : Fs)
    (destPath relPath : FPath) : List FPath → Fs
  | [] => fs
  | backupDir :: rest =>
      if backupDir = [] then cleanupBackupDirs cfg now fs destPath relPath rest
      else
        let backupBase := handleHistoryDir cfg backupDir
        match moveToBackup now fs destPath backupBase relPath cfg.Timestamp with
        | none => cleanupBackupDirs cfg now fs destPath relPath rest
        | some fs1 =>
            match pruneBackups fs1 backupBase relPath cfg.BackupKeep with
            | none => fs1
            | some fs2 => fs2

/-- The walk body of `CleanupDeletedSrcFiles` (`filepath.Walk` with the
closure inlined): skip the current run's history subtree, keep files that
are targets or whose parent directory is a target, and version-and-remove
every other file. -/
def cleanupWalk (cfg : Config) (now : Int) :
    Nat → Fs → List FPath → FPath → FPath → Fs
  | 0, fs, _, _, _ => fs
  | fuel + 1, fs, targets, phd, path =>
      match fstat fs path with
      | none => fs
      | some (FNode.dir _) =>
          if phd ≠ [] ∧ isPre phd path then fs
          else
            (childNames fs path).foldl
              (fun acc name => cleanupWalk cfg now fuel acc targets phd (path ++ [name]))
              fs
      | some (FNode.file _ _) =>
          if path ∈ targets then fs
          else if path.dropLast ∈ targets then fs
          else if isPre cfg.BackupRoot path then
            cleanupBackupDirs cfg now fs path (path.drop cfg.BackupRoot.length)
              cfg.BackupDirs
          else fs

/-- The deepest path recorded in the filesystem (a fuel bound for walks). -/
def fsDepth (fs : Fs) : Nat :=
  fs.foldl (fun m e => max m e.1.length) 0

/-- `CleanupDeletedSrcFiles`: walk the backup root and version-and-remove
every file that is neither a current target nor directly inside a target
directory, excluding the `HandleHistoryDir` subtree. -/
def cleanupDeletedSrcFiles (cfg : Config) (now : Int) (fs : Fs)
    (targets : List FPath) : Fs :=
  cleanupWalk cfg now (fsDepth fs + 1) fs targets
    (handleHistoryDir cfg cfg.BackupRoot) cfg.BackupRoot

/-! ### The copy engine (`copyFile` / `copyDir` in the copy package)

`copyFile` and `copyDir` are mutually recursive; they are modelled as one
fuel-indexed function `copyNode`, with `dirMode = false` for `copyFile` and
`dirMode = true` for `copyDir`.  The result mirrors Go's
`(skipped bool, err error)` with the filesystem threaded through.  The
excluder parameter models the `*exclude.Matcher` consulted by `copyDir`. -/

/-- `helpers.BackupFileBeforeOverwrite`.  Modelled from the spec: the
function is called by `copyFile` before overwriting a destination that is
strictly older than its source, but its definition is missing from the
sources (only its caller is present).  Per §4.6 of the specification —
"moves … the existing destination content into
`backupDir/timestamp/relPath/`… After a successful move, retention pruning
runs for that specific relative path" — and exactly like the per-file loop
of `CleanupDeletedSrcFiles`, it moves the destination into the history base
of the first usable backup directory and prunes; its error, if any, is
logged and swallowed by the caller. -/
def backupFileBeforeOverwrite (cfg : Config) (now : Int) (fs : Fs)
    (destPath : FPath) : Fs :=
  if isPre cfg.BackupRoot destPath then
    cleanupBackupDirs cfg now fs destPath (destPath.drop cfg.BackupRoot.length)
      cfg.BackupDirs
  else fs

/-- `copyFile` (`dirMode = false`) and `copyDir` (`dirMode = true`). -/
def copyNode (cfg : Config) (excl : FPath → Bool) (now : Int) :
    Nat → Bool → Fs → FPath → FPath → Fs × Bool × Option String
  | 0, _, fs, _, _ => (fs, false, some "fuel exhausted")
  | fuel + 1, true, fs, srcPath, destPath =>
      -- copyDir: create the destination directory, then copy entry by entry.
      let fs1 := mkdirAll now fs destPath
      match fstat fs1 srcPath with
      | some (FNode.dir _) =>
          let r := (childNames fs1 srcPath).foldl
            (fun (st : Fs × Option String) name =>
              match st with
              | (facc, some e) => (facc, some e)
              | (facc, none) =>
                  let srcEntry := srcPath ++ [name]
                  let destEntry := destPath ++ [name]
                  if excl srcEntry then (facc, none)
                  else
                    match fstat facc srcEntry with
                    | some (FNode.dir _) =>
                        let r := copyNode cfg excl now fuel true facc srcEntry destEntry
                        (r.1, r.2.2)
                    | _ =>
                        let r := copyNode cfg excl now fuel false facc srcEntry destEntry
                        (r.1, r.2.2))
            (fs1, none)
          (r.1, false, r.2)
      | _ => (fs1, false, some "read source dir failed")
  | fuel + 1, false, fs, srcPath, destPath =>
      -- copyFile
      match fstat fs srcPath with
      | none => (fs, false, some "source stat failed")
      | some srcInfo =>
          let afterCheck : Fs × Bool :=
            match fstat fs destPath with
            | some destInfo =>
                if srcInfo.mtime < destInfo.mtime ∨ srcInfo.mtime = destInfo.mtime then
                  (fs, true)
                else if cfg.BackupDirs.length > 0 then
                  (backupFileBeforeOverwrite cfg now fs destPath, false)
                else (fs, false)
            | none => (fs, false)
          if afterCheck.2 then (fs, true, none)
          else
            let fs1 := afterCheck.1
            match srcInfo with
            | FNode.dir _ => copyNode cfg excl now fuel true fs1 srcPath destPath
            | FNode.file srcM content =>
                let fs2 := mkdirAll now fs1 destPath.dropLast
                let tmp := tmpPath destPath
                let fs3 := fsSet fs2 tmp (FNode.file now content)
                match fsRename fs3 tmp destPath with
                | none => (fsRemoveAll fs3 tmp, false, some "rename failed")
                | some fs4 =>
                    let fs5 :=
                      match fstat fs4 destPath with
                      | some (FNode.file _ c) => fsSet fs4 destPath (FNode.file srcM c)
                      | some (FNode.dir _) => fsSet fs4 destPath (FNode.dir srcM)
                      | none => fs4
                    (fs5, false, none)

/-- The running counters (`RealTimeCopyResult`). -/
structure Counters where
  copied : Nat
  skipped : Nat
  errors : Nat
  total : Nat
  deriving DecidableEq

/-- One collector step: every finished job bumps `total` (set by the
producer as the entry is received) and exactly one of the three outcome
counters. -/
def tally (c : Counters) (skipped : Bool) (err : Option String) : Counters :=
  match err with
  | some _ => { c with errors := c.errors + 1, total := c.total + 1 }
  | none =>
      if skipped then { c with skipped := c.skipped + 1, total := c.total + 1 }
      else { c with copied := c.copied + 1, total := c.total + 1 }

/-- A discovered entry (`scanner.IgnoredFileInfo`). -/
structure FileInfo where
  AbsPath : FPath
  RelativePath : FPath
  RepoRoot : FPath
  deriving DecidableEq

/-- `CopyFilesStreamWithProgress`, drained: each entry received from the
stream becomes one copy job whose outcome is tallied exactly once; after the
producer has seen every entry it runs `CleanupDeletedSrcFiles` over the
collected target paths (when any backup directory is configured).  The
worker pool is sequentialised: entries are consumed exactly once each, and
the counters are order-insensitive. -/
def runCopyStream (cfg : Config) (excl : FPath → Bool) (now : Int)
    (fuel : Nat) (fs : Fs) (files : List FileInfo) : Fs × Counters :=
  let res := files.foldl
    (fun (st : Fs × Counters) file =>
      let destPath := cfg.BackupRoot ++ file.RelativePath
      let r := copyNode cfg excl now fuel false st.1 file.AbsPath destPath
      (r.1, tally st.2 r.2.1 r.2.2))
    (fs, ⟨0, 0, 0, 0⟩)
  let targets := files.map (fun f => cfg.BackupRoot ++ f.RelativePath)
  let fs2 :=
    if cfg.BackupDirs.length > 0 then cleanupDeletedSrcFiles cfg now res.1 targets
    else res.1
  (fs2, res.2)

/-! ### Path and filesystem-operation facts -/

theorem isPre_iff (p q : FPath) : isPre p q = true ↔ p <+: q := by
  simp [isPre, List.isPrefixOf_iff_prefix]

theorem isPre_refl (p : FPath) : isPre p p = true := by
  rw [isPre_iff]

theorem isPre_append_right (p x : FPath) : isPre p (p ++ x) = true := by
  rw [isPre_iff]; exact ⟨x, rfl⟩

theorem ne_of_not_isPre {p q : FPath} (h : isPre p q = false) : p ≠ q := by
  intro he; subst he; rw [isPre_refl] at h; cases h

theorem not_isPre_of_append {d p : FPath} (x : FPath)
    (h : isPre d p = false) : isPre (d ++ x) p = false := by
  rw [← Bool.not_eq_true] at h ⊢
  rw [isPre_iff] at h ⊢
  exact fun hp => h ((d.prefix_append x).trans hp)

theorem isPre_of_isPre_of_isPre {a b c : FPath} (h1 : isPre a b = true)
    (h2 : isPre b c = true) : isPre a c = true := by
  rw [isPre_iff] at h1 h2 ⊢
  exact h1.trans h2

theorem not_isPre_of_isPre {a b p : FPath} (hab : isPre a b = true)
    (h : isPre a p = false) : isPre b p = false := by
  rw [← Bool.not_eq_true] at h ⊢
  exact fun hp => h (isPre_of_isPre_of_isPre hab hp)

/-- No node at `p` is a file. -/
def notFile (fs : Fs) (p : FPath) : Prop :=
  ∀ m c, fstat fs p ≠ some (FNode.file m c)

/-- A name ends with the temporary-file suffix. -/
def endsWithTmp (s : String) : Bool :=
  List.isSuffixOf ".tmp".toList s.toList

/-- No segment of the path carries the temporary-file suffix. -/
def noTmp (p : FPath) : Prop :=
  ∀ s ∈ p, endsWithTmp s = false

theorem endsWithTmp_append (x : String) : endsWithTmp (x ++ ".tmp") = true := by
  rw [endsWithTmp, List.isSuffixOf_iff_suffix]
  show _ <:+ (String.toList (x ++ ".tmp"))
  have : String.toList (x ++ ".tmp") = x.toList ++ ".tmp".toList := rfl
  rw [this]
  exact List.suffix_append _ _

theorem noTmp_of_isPre {a p : FPath} (h : isPre a p = true) (hp : noTmp p) :
    noTmp a := by
  intro s hs
  rw [isPre_iff] at h
  exact hp s (h.subset hs)

/-- The history root of the default configuration: the backup root's history
subdirectory joined with the run timestamp. -/
def histRoot (cfg : Config) : FPath :=
  handleHistoryDir cfg cfg.BackupRoot

theorem histRoot_eq (cfg : Config) (hh : cfg.HistoryDir = []) :
    histRoot cfg = cfg.BackupRoot ++ [cfg.BackupSubdir, cfg.Timestamp] := by
  simp [histRoot, handleHistoryDir, hh]

theorem fstat_fsSet_self (fs : Fs) (p : FPath) (n : FNode) :
    fstat (fsSet fs p n) p = some n := by
  simp [fstat, fsSet, List.find?]

theorem fstat_fsSet_ne (fs : Fs) {p q : FPath} (n : FNode) (h : q ≠ p) :
    fstat (fsSet fs q n) p = fstat fs p := by
  simp [fstat, fsSet, List.find?, h]

theorem find?_append (l₁ l₂ : Fs) (pr : FPath × FNode → Bool) :
    (l₁ ++ l₂).find? pr =
      match l₁.find? pr with
      | some x => some x
      | none => l₂.find? pr := by
  induction l₁ with
  | nil => simp
  | cons e t ih =>
      by_cases he : pr e = true
      · simp [List.find?, he]
      · rw [Bool.not_eq_true] at he
        simp [List.find?, he, ih]

theorem fstat_filter_keep (fs : Fs) (p : FPath) (g : FPath × FNode → Bool)
    (hg : ∀ e ∈ fs, e.1 = p → g e = true) :
    fstat (fs.filter g) p = fstat fs p := by
  induction fs with
  | nil => rfl
  | cons e t ih =>
      have iht := ih (fun e' he' hp => hg e' (by simp [he']) hp)
      by_cases hp : e.1 = p
      · have hge := hg e (by simp) hp
        simp [fstat, List.filter, hge, List.find?, hp]
      · by_cases hge : g e = true
        · simpa [fstat, List.filter, hge, List.find?, hp] using iht
        · rw [Bool.not_eq_true] at hge
          simpa [fstat, List.filter, hge, List.find?, hp] using iht

theorem fstat_eq_none_of_no_path (l : Fs) (p : FPath)
    (h : ∀ e ∈ l, e.1 ≠ p) : fstat l p = none := by
  induction l with
  | nil => rfl
  | cons e t ih =>
      have hd : decide (e.1 = p) = false := decide_eq_false (h e (by simp))
      simp only [fstat, List.find?, hd]
      have := ih (fun e' he' => h e' (by simp [he']))
      simpa [fstat] using this

theorem fstat_filter_drop (fs : Fs) (p : FPath) (g : FPath × FNode → Bool)
    (hg : ∀ e ∈ fs, e.1 = p → g e = false) :
    fstat (fs.filter g) p = none := by
  apply fstat_eq_none_of_no_path
  intro e he hp
  have hin := List.mem_of_mem_filter he
  have hpass := List.of_mem_filter he
  rw [hg e hin hp] at hpass
  cases hpass

theorem fstat_fsRemoveAll_of_not (fs : Fs) {q p : FPath}
    (h : isPre q p = false) :
    fstat (fsRemoveAll fs q) p = fstat fs p := by
  apply fstat_filter_keep
  intro e _ hp
  rw [hp, h]
  rfl

theorem fstat_fsRemoveAll_isPre (fs : Fs) {q p : FPath}
    (h : isPre q p = true) :
    fstat (fsRemoveAll fs q) p = none := by
  apply fstat_filter_drop
  intro e _ hp
  rw [hp, h]
  rfl

theorem fstat_append (l₁ l₂ : Fs) (p : FPath) :
    fstat (l₁ ++ l₂) p =
      match fstat l₁ p with
      | some x => some x
      | none => fstat l₂ p := by
  simp only [fstat, find?_append]
  cases l₁.find? (fun e => e.1 = p) <;> rfl

theorem mem_rename_map_isPre (fs : Fs) (src target : FPath) :
    ∀ e ∈ (fs.filter (fun e => isPre src e.1)).map
      (fun e => (target ++ e.1.drop src.length, e.2)), isPre target e.1 = true := by
  intro e he
  simp only [List.mem_map] at he
  obtain ⟨e', _, he⟩ := he
  rw [← he]
  exact isPre_append_right _ _

theorem fstat_fsRename_other (fs : Fs) {src target p : FPath} {fs' : Fs}
    (hsrc : isPre src p = false) (htgt : isPre target p = false)
    (h : fsRename fs src target = some fs') :
    fstat fs' p = fstat fs p := by
  unfold fsRename at h
  cases hs : fstat fs src with
  | none => rw [hs] at h; cases h
  | some n =>
      rw [hs] at h
      injection h with h
      subst h
      rw [fstat_append]
      have h1 : fstat (fs.filter
          (fun e => !isPre src e.1 && !isPre target e.1)) p = fstat fs p := by
        apply fstat_filter_keep
        intro e _ hp
        rw [hp, hsrc, htgt]
        rfl
      have h2 : fstat ((fs.filter (fun e => isPre src e.1)).map
          (fun e => (target ++ e.1.drop src.length, e.2))) p = none := by
        apply fstat_eq_none_of_no_path
        intro e he hp
        have := mem_rename_map_isPre fs src target e he
        rw [hp, htgt] at this
        cases this
      rw [h1, h2]
      cases fstat fs p <;> rfl

theorem fstat_fsRename_removes_src (fs : Fs) {src target p : FPath} {fs' : Fs}
    (hp : isPre src p = true) (hnt : isPre target p = false)
    (h : fsRename fs src target = some fs') :
    fstat fs' p = none := by
  unfold fsRename at h
  cases hs : fstat fs src with
  | none => rw [hs] at h; cases h
  | some n =>
      rw [hs] at h
      injection h with h
      subst h
      rw [fstat_append]
      have h1 : fstat (fs.filter
          (fun e => !isPre src e.1 && !isPre target e.1)) p = none := by
        apply fstat_filter_drop
        intro e _ hep
        rw [hep, hp]
        rfl
      have h2 : fstat ((fs.filter (fun e => isPre src e.1)).map
          (fun e => (target ++ e.1.drop src.length, e.2))) p = none := by
        apply fstat_eq_none_of_no_path
        intro e he hep
        have := mem_rename_map_isPre fs src target e he
        rw [hep, hnt] at this
        cases this
      rw [h1, h2]

/-- Renaming a path that is the head entry of the filesystem lands its node
at the target. -/
theorem fstat_fsRename_head (fs : Fs) (src target : FPath) (n : FNode)
    {fs' : Fs}
    (h : fsRename (fsSet fs src n) src target = some fs') :
    fstat fs' target = some n := by
  unfold fsRename at h
  cases hs : fstat (fsSet fs src n) src with
  | none => rw [fstat_fsSet_self] at hs; cases hs
  | some m =>
      rw [hs] at h
      injection h with h
      subst h
      rw [fstat_append]
      have h1 : fstat ((fsSet fs src n).filter
          (fun e => !isPre src e.1 && !isPre target e.1)) target = none := by
        apply fstat_filter_drop
        intro e _ hep
        rw [hep, isPre_refl]
        simp
      rw [h1]
      have hmap : ((fsSet fs src n).filter (fun e => isPre src e.1)).map
          (fun e => (target ++ e.1.drop src.length, e.2)) =
          (target, n) :: ((fs.filter (fun e => isPre src e.1)).map
            (fun e => (target ++ e.1.drop src.length, e.2))) := by
        simp [fsSet, List.filter_cons, isPre_refl]
      rw [hmap]
      simp [fstat, List.find?]

theorem fstat_fsRename_none (fs : Fs) {src target : FPath}
    (h : fsRename fs src target = none) : fstat fs src = none := by
  unfold fsRename at h
  cases hs : fstat fs src with
  | none => rfl
  | some n => rw [hs] at h; cases h

theorem mkdirAll_pres_some (now : Int) (fs : Fs) (q : FPath) {p : FPath}
    {v : FNode} (h : fstat fs p = some v) :
    fstat (mkdirAll now fs q) p = some v := by
  unfold mkdirAll
  generalize q.inits.filter (fun q => q ≠ []) = l
  induction l generalizing fs with
  | nil => exact h
  | cons a t ih =>
      simp only [List.foldl_cons]
      by_cases ha : fstat fs a = none
      · rw [if_pos ha]
        apply ih
        rw [fstat_fsSet_ne]
        · exact h
        · intro he
          rw [he, h] at ha
          cases ha
      · rw [if_neg ha]
        exact ih fs h

/-- The nodes `mkdirAll` creates are directories, so `notFile` is stable. -/
theorem mkdirAll_notFile (now : Int) (fs : Fs) (q : FPath) {p : FPath}
    (h : notFile fs p) : notFile (mkdirAll now fs q) p := by
  unfold mkdirAll
  generalize q.inits.filter (fun q => q ≠ []) = l
  induction l generalizing fs with
  | nil => exact h
  | cons a t ih =>
      simp only [List.foldl_cons]
      by_cases ha : fstat fs a = none
      · rw [if_pos ha]
        apply ih
        intro m c
        by_cases hap : a = p
        · rw [hap, fstat_fsSet_self]
          simp
        · rw [fstat_fsSet_ne _ _ hap]
          exact h m c
      · rw [if_neg ha]
        exact ih fs h

/-- The generic step lemma behind `mkdirAll`: folding directory creation
over any list of paths preserves an existing node. -/
theorem mkfold_pres_some (now : Int) (l : List FPath) (fs : Fs) {p : FPath}
    {v : FNode} (h : fstat fs p = some v) :
    fstat (l.foldl
      (fun acc q => if fstat acc q = none then fsSet acc q (FNode.dir now) else acc)
      fs) p = some v := by
  induction l generalizing fs with
  | nil => exact h
  | cons a t ih =>
      simp only [List.foldl_cons]
      by_cases ha : fstat fs a = none
      · rw [if_pos ha]
        apply ih
        rw [fstat_fsSet_ne]
        · exact h
        · intro he
          rw [he, h] at ha
          cases ha
      · rw [if_neg ha]
        exact ih fs h

theorem mkfold_pres_of_ne (now : Int) (l : List FPath) {p : FPath} :
    ∀ fs : Fs, (∀ a ∈ l, a ≠ p) →
    fstat (l.foldl
      (fun acc q => if fstat acc q = none then fsSet acc q (FNode.dir now) else acc)
      fs) p = fstat fs p := by
  induction l with
  | nil => intro fs _; rfl
  | cons a t ih =>
      intro fs hl
      simp only [List.foldl_cons]
      have ha := hl a (by simp)
      by_cases hsa : fstat fs a = none
      · rw [if_pos hsa]
        rw [ih _ (fun a' ha' => hl a' (by simp [ha']))]
        exact fstat_fsSet_ne fs _ ha
      · rw [if_neg hsa]
        exact ih fs (fun a' ha' => hl a' (by simp [ha']))

theorem mkdirAll_pres_of_not_isPre (now : Int) (fs : Fs) {q p : FPath}
    (h : isPre p q = false) :
    fstat (mkdirAll now fs q) p = fstat fs p := by
  unfold mkdirAll
  apply mkfold_pres_of_ne
  intro a ha hap
  have := List.mem_of_mem_filter ha
  rw [List.mem_inits] at this
  rw [hap] at this
  rw [← isPre_iff] at this
  rw [this] at h
  cases h

theorem mkfold_self (now : Int) (l : List FPath) {q : FPath} :
    ∀ fs : Fs, q ∈ l → fstat fs q = none →
    fstat (l.foldl
      (fun acc r => if fstat acc r = none then fsSet acc r (FNode.dir now) else acc)
      fs) q = some (FNode.dir now) := by
  induction l with
  | nil => intro fs hm; simp at hm
  | cons a t ih =>
      intro fs hm h
      simp only [List.foldl_cons]
      by_cases haq : a = q
      · subst haq
        rw [if_pos h]
        exact mkfold_pres_some now t _ (fstat_fsSet_self fs a (FNode.dir now))
      · have hqt : q ∈ t := by
          rcases List.mem_cons.mp hm with h' | h'
          · exact absurd h'.symm haq
          · exact h'
        by_cases hsa : fstat fs a = none
        · rw [if_pos hsa]
          apply ih _ hqt
          rw [fstat_fsSet_ne fs _ haq]
          exact h
        · rw [if_neg hsa]
          exact ih fs hqt h

/-- `mkdirAll` creates its own path when it was absent. -/
theorem mkdirAll_self (now : Int) (fs : Fs) {q : FPath} (hq : q ≠ [])
    (h : fstat fs q = none) :
    fstat (mkdirAll now fs q) q = some (FNode.dir now) := by
  unfold mkdirAll
  apply mkfold_self now _ fs _ h
  rw [List.mem_filter]
  constructor
  · rw [List.mem_inits]
  · simpa using hq

theorem fsRemoveAll_notFile (fs : Fs) (q : FPath) {p : FPath}
    (h : notFile fs p) : notFile (fsRemoveAll fs q) p := by
  intro m c
  by_cases hq : isPre q p = true
  · rw [fstat_fsRemoveAll_isPre fs hq]
    simp
  · rw [Bool.not_eq_true] at hq
    rw [fstat_fsRemoveAll_of_not fs hq]
    exact h m c

theorem fstat_fsRemoveAll_none (fs : Fs) (q : FPath) {p : FPath}
    (h : fstat fs p = none) : fstat (fsRemoveAll fs q) p = none := by
  by_cases hq : isPre q p = true
  · exact fstat_fsRemoveAll_isPre fs hq
  · rw [Bool.not_eq_true] at hq
    rw [fstat_fsRemoveAll_of_not fs hq]
    exact h

theorem moveToBackup_pres (now : Int) (fs : Fs) {src destBase relPath p : FPath}
    {ts : String} {v : FNode} {fs' : Fs}
    (hv : fstat fs p = some v) (hsrc : isPre src p = false)
    (hdb : isPre destBase p = false)
    (h : moveToBackup now fs src destBase relPath ts = some fs') :
    fstat fs' p = some v := by
  unfold moveToBackup at h
  have htgt : isPre (destBase ++ [ts] ++ relPath) p = false := by
    apply not_isPre_of_isPre _ hdb
    rw [show destBase ++ [ts] ++ relPath = destBase ++ ([ts] ++ relPath) by simp]
    exact isPre_append_right _ _
  rw [fstat_fsRename_other _ hsrc htgt h]
  exact mkdirAll_pres_some now fs _ hv

theorem moveToBackup_notFile (now : Int) (fs : Fs)
    {src destBase relPath p : FPath} {ts : String} {fs' : Fs}
    (hnf : notFile fs p) (hdb : isPre destBase p = false)
    (h : moveToBackup now fs src destBase relPath ts = some fs') :
    notFile fs' p := by
  unfold moveToBackup at h
  have htgt : isPre (destBase ++ [ts] ++ relPath) p = false := by
    apply not_isPre_of_isPre _ hdb
    rw [show destBase ++ [ts] ++ relPath = destBase ++ ([ts] ++ relPath) by simp]
    exact isPre_append_right _ _
  by_cases hsrc : isPre src p = true
  · intro m c
    rw [fstat_fsRename_removes_src _ hsrc htgt h]
    simp
  · rw [Bool.not_eq_true] at hsrc
    intro m c
    rw [fstat_fsRename_other _ hsrc htgt h]
    exact mkdirAll_notFile now fs _ hnf m c

theorem prune_fold_pres (base : FPath) (names : List String) (fs : Fs)
    {p : FPath} (hdb : isPre base p = false) :
    fstat (names.foldl (fun acc name => fsRemoveAll acc (base ++ [name])) fs) p =
      fstat fs p := by
  induction names generalizing fs with
  | nil => rfl
  | cons a t ih =>
      simp only [List.foldl_cons]
      rw [ih]
      exact fstat_fsRemoveAll_of_not fs (not_isPre_of_append [a] hdb)

theorem prune_fold_notFile (base : FPath) (names : List String) {p : FPath} :
    ∀ fs : Fs, notFile fs p →
    notFile (names.foldl (fun acc name => fsRemoveAll acc (base ++ [name])) fs) p := by
  induction names with
  | nil => intro fs h; exact h
  | cons a t ih =>
      intro fs h
      simp only [List.foldl_cons]
      exact ih _ (fsRemoveAll_notFile fs _ h)

theorem prune_fold_none (base : FPath) (names : List String) {p : FPath} :
    ∀ fs : Fs, fstat fs p = none →
    fstat (names.foldl (fun acc name => fsRemoveAll acc (base ++ [name])) fs) p =
      none := by
  induction names with
  | nil => intro fs h; exact h
  | cons a t ih =>
      intro fs h
      simp only [List.foldl_cons]
      exact ih _ (fstat_fsRemoveAll_none fs _ h)

theorem pruneBackups_pres (fs : Fs) {destBase relPath p : FPath} {keep : Nat}
    {fs' : Fs} (hdb : isPre destBase p = false)
    (h : pruneBackups fs destBase relPath keep = some fs') :
    fstat fs' p = fstat fs p := by
  simp only [pruneBackups] at h
  split at h
  · cases h
  · split at h
    · injection h with h
      rw [← h]
    · injection h with h
      rw [← h]
      exact prune_fold_pres _ _ fs (not_isPre_of_append relPath hdb)

theorem pruneBackups_notFile (fs : Fs) {destBase relPath p : FPath}
    {keep : Nat} {fs' : Fs} (hnf : notFile fs p)
    (h : pruneBackups fs destBase relPath keep = some fs') :
    notFile fs' p := by
  simp only [pruneBackups] at h
  split at h
  · cases h
  · split at h
    · injection h with h
      rw [← h]
      exact hnf
    · injection h with h
      rw [← h]
      exact prune_fold_notFile _ _ fs hnf

theorem cleanupBackupDirs_pres (cfg : Config) (now : Int) (fs : Fs)
    {destPath relPath p : FPath} {v : FNode} (dirs : List FPath)
    (hv : fstat fs p = some v) (hdp : isPre destPath p = false)
    (hb : ∀ b ∈ dirs, isPre (handleHistoryDir cfg b) p = false) :
    fstat (cleanupBackupDirs cfg now fs destPath relPath dirs) p = some v := by
  induction dirs generalizing fs with
  | nil => exact hv
  | cons b rest ih =>
      simp only [cleanupBackupDirs]
      by_cases hbe : b = []
      · rw [if_pos hbe]
        exact ih fs hv (fun b' hb' => hb b' (by simp [hb']))
      · rw [if_neg hbe]
        have hbp := hb b (by simp)
        split
        · exact ih fs hv (fun b' hb' => hb b' (by simp [hb']))
        · rename_i fs1 hm
          have h1 : fstat fs1 p = some v :=
            moveToBackup_pres now fs hv hdp hbp hm
          split
          · exact h1
          · rename_i fs2 hp
            rw [pruneBackups_pres fs1 hbp hp]
            exact h1

theorem cleanupBackupDirs_notFile (cfg : Config) (now : Int) (fs : Fs)
    {destPath relPath p : FPath} (dirs : List FPath)
    (hnf : notFile fs p)
    (hb : ∀ b ∈ dirs, isPre (handleHistoryDir cfg b) p = false) :
    notFile (cleanupBackupDirs cfg now fs destPath relPath dirs) p := by
  induction dirs generalizing fs with
  | nil => exact hnf
  | cons b rest ih =>
      simp only [cleanupBackupDirs]
      by_cases hbe : b = []
      · rw [if_pos hbe]
        exact ih fs hnf (fun b' hb' => hb b' (by simp [hb']))
      · rw [if_neg hbe]
        have hbp := hb b (by simp)
        split
        · exact ih fs hnf (fun b' hb' => hb b' (by simp [hb']))
        · rename_i fs1 hm
          have h1 : notFile fs1 p := moveToBackup_notFile now fs hnf hbp hm
          split
          · exact h1
          · rename_i fs2 hp
            exact pruneBackups_notFile fs1 h1 hp

theorem backupFileBeforeOverwrite_pres (cfg : Config) (now : Int) (fs : Fs)
    {destPath p : FPath} {v : FNode}
    (hbd : cfg.BackupDirs = [cfg.BackupRoot])
    (hv : fstat fs p = some v) (hdp : isPre destPath p = false)
    (hhr : isPre (histRoot cfg) p = false) :
    fstat (backupFileBeforeOverwrite cfg now fs destPath) p = some v := by
  unfold backupFileBeforeOverwrite
  by_cases hbr : isPre cfg.BackupRoot destPath = true
  · rw [if_pos hbr, hbd]
    apply cleanupBackupDirs_pres cfg now fs _ hv hdp
    intro b hb
    rw [List.mem_singleton] at hb
    rw [hb]
    exact hhr
  · rw [Bool.not_eq_true] at hbr
    rw [if_neg (by simp [hbr])]
    exact hv

theorem backupFileBeforeOverwrite_notFile (cfg : Config) (now : Int) (fs : Fs)
    {destPath p : FPath}
    (hbd : cfg.BackupDirs = [cfg.BackupRoot])
    (hnf : notFile fs p)
    (hhr : isPre (histRoot cfg) p = false) :
    notFile (backupFileBeforeOverwrite cfg now fs destPath) p := by
  unfold backupFileBeforeOverwrite
  by_cases hbr : isPre cfg.BackupRoot destPath = true
  · rw [if_pos hbr, hbd]
    apply cleanupBackupDirs_notFile cfg now fs _ hnf
    intro b hb
    rw [List.mem_singleton] at hb
    rw [hb]
    exact hhr
  · rw [Bool.not_eq_true] at hbr
    rw [if_neg (by simp [hbr])]
    exact hnf

theorem pruneBackups_pres_none (fs : Fs) {destBase relPath p : FPath}
    {keep : Nat} {fs' : Fs} (hn : fstat fs p = none)
    (h : pruneBackups fs destBase relPath keep = some fs') :
    fstat fs' p = none := by
  simp only [pruneBackups] at h
  split at h
  · cases h
  · split at h
    · injection h with h
      rw [← h]
      exact hn
    · injection h with h
      rw [← h]
      exact prune_fold_none _ _ fs hn

/-- The backup step removes an existing destination: after
`BackupFileBeforeOverwrite`, the destination path is gone (it was moved into
the history subtree). -/
theorem backupFileBeforeOverwrite_removes (cfg : Config) (now : Int) (fs : Fs)
    {destPath : FPath} {d : FNode}
    (hbd : cfg.BackupDirs = [cfg.BackupRoot]) (hbrne : cfg.BackupRoot ≠ [])
    (hd : fstat fs destPath = some d)
    (hbr : isPre cfg.BackupRoot destPath = true)
    (hhr : isPre (histRoot cfg) destPath = false) :
    fstat (backupFileBeforeOverwrite cfg now fs destPath) destPath = none := by
  unfold backupFileBeforeOverwrite
  rw [if_pos hbr, hbd]
  simp only [cleanupBackupDirs]
  rw [if_neg hbrne]
  have htgt : isPre (handleHistoryDir cfg cfg.BackupRoot ++ [cfg.Timestamp] ++
      (destPath.drop cfg.BackupRoot.length)) destPath = false := by
    apply not_isPre_of_isPre _ hhr
    rw [show handleHistoryDir cfg cfg.BackupRoot ++ [cfg.Timestamp] ++
        destPath.drop cfg.BackupRoot.length =
        histRoot cfg ++ ([cfg.Timestamp] ++ destPath.drop cfg.BackupRoot.length)
      by simp [histRoot]]
    exact isPre_append_right _ _
  split
  · rename_i hm
    exfalso
    unfold moveToBackup at hm
    have := fstat_fsRename_none _ hm
    rw [mkdirAll_pres_some now fs _ hd] at this
    cases this
  · rename_i fs1 hm
    have h1 : fstat fs1 destPath = none := by
      unfold moveToBackup at hm
      exact fstat_fsRename_removes_src _ (isPre_refl destPath) htgt hm
    split
    · exact h1
    · rename_i fs2 hp
      exact pruneBackups_pres_none fs1 h1 hp

theorem append_singleton_ne_of_isPre {br dest : FPath} (x : String)
    (h : isPre br dest = true) : dest ++ [x] ≠ br := by
  intro he
  have h1 := (isPre_iff br dest).mp h
  have h2 := h1.length_le
  have h3 : (dest ++ [x]).length = br.length := by rw [he]
  simp at h3
  omega

theorem isPre_br_tmpPath {br dest : FPath} (hbr : isPre br dest = true)
    (hdne : dest ≠ br) : isPre br (tmpPath dest) = true := by
  obtain ⟨rel, hrel⟩ := (isPre_iff br dest).mp hbr
  have hrne : rel ≠ [] := by
    intro h
    rw [h, List.append_nil] at hrel
    exact hdne hrel.symm
  rw [isPre_iff, tmpPath, ← hrel, List.dropLast_append_of_ne_nil _ hrne,
    List.append_assoc]
  exact List.prefix_append _ _

theorem tmpPath_ne {br dest p : FPath} (hbr : isPre br dest = true)
    (hdne : dest ≠ br) (htmp : noTmp p ∨ isPre br p = false) :
    tmpPath dest ≠ p := by
  intro he
  rcases htmp with ht | ht
  · have hmem : lastSeg dest ++ ".tmp" ∈ p := by
      rw [← he, tmpPath]
      simp
    have := ht _ hmem
    rw [endsWithTmp_append] at this
    cases this
  · have := isPre_br_tmpPath hbr hdne
    rw [he, ht] at this
    cases this

theorem not_isPre_tmpPath {br dest p : FPath} (hbr : isPre br dest = true)
    (hdne : dest ≠ br) (htmp : noTmp p ∨ isPre br p = false) :
    isPre (tmpPath dest) p = false := by
  rw [← Bool.not_eq_true]
  intro hpre
  rcases htmp with ht | ht
  · have hmem : lastSeg dest ++ ".tmp" ∈ p := by
      have hsub := ((isPre_iff _ _).mp hpre).subset
      apply hsub
      rw [tmpPath]
      simp
    have := ht _ hmem
    rw [endsWithTmp_append] at this
    cases this
  · have := isPre_of_isPre_of_isPre (isPre_br_tmpPath hbr hdne) hpre
    rw [ht] at this
    cases this

/-- Preservation: `copyFile`/`copyDir` never changes the node at a path that
exists, is outside the destination subtree and the current history subtree,
and is not a temporary path (any path without `.tmp` segments, or any path
outside the backup root). -/
theorem copyNode_pres (cfg : Config) (excl : FPath → Bool) (now : Int)
    (hbd : cfg.BackupDirs = [cfg.BackupRoot]) :
    ∀ (fuel : Nat) (mode : Bool) (fs : Fs) (src dest p : FPath) (v : FNode),
    isPre cfg.BackupRoot dest = true → dest ≠ cfg.BackupRoot →
    fstat fs p = some v → isPre dest p = false →
    isPre (histRoot cfg) p = false →
    (noTmp p ∨ isPre cfg.BackupRoot p = false) →
    fstat (copyNode cfg excl now fuel mode fs src dest).1 p = some v := by
  intro fuel
  induction fuel with
  | zero =>
      intro mode fs src dest p v _ _ hv _ _ _
      simpa [copyNode] using hv
  | succ f ih =>
      intro mode fs src dest p v hbr hdne hv hdp hhr htmp
      cases mode with
      | true =>
          simp only [copyNode]
          have hfs1 : fstat (mkdirAll now fs dest) p = some v :=
            mkdirAll_pres_some now fs dest hv
          cases hsrc : fstat (mkdirAll now fs dest) src with
          | none => simpa [hsrc] using hfs1
          | some srcInfo =>
              cases srcInfo with
              | file m c => simpa [hsrc] using hfs1
              | dir m =>
                  simp only [hsrc]
                  have hfold : ∀ (names : List String) (st : Fs × Option String),
                      fstat st.1 p = some v →
                      fstat ((names.foldl
                        (fun (st : Fs × Option String) name =>
                          match st with
                          | (facc, some e) => (facc, some e)
                          | (facc, none) =>
                              if excl (src ++ [name]) then (facc, none)
                              else
                                match fstat facc (src ++ [name]) with
                                | some (FNode.dir _) =>
                                    let r := copyNode cfg excl now f true facc
                                      (src ++ [name]) (dest ++ [name])
                                    (r.1, r.2.2)
                                | _ =>
                                    let r := copyNode cfg excl now f false facc
                                      (src ++ [name]) (dest ++ [name])
                                    (r.1, r.2.2))
                        st).1) p = some v := by
                    intro names
                    induction names with
                    | nil => intro st h; exact h
                    | cons name t iht =>
                        intro st h
                        simp only [List.foldl_cons]
                        apply iht
                        obtain ⟨facc, err⟩ := st
                        cases err with
                        | some e => exact h
                        | none =>
                            simp only at h
                            by_cases hex : excl (src ++ [name]) = true
                            · simpa [hex] using h
                            · have hbr' : isPre cfg.BackupRoot (dest ++ [name]) = true :=
                                isPre_of_isPre_of_isPre hbr (isPre_append_right dest [name])
                              have hdne' : dest ++ [name] ≠ cfg.BackupRoot :=
                                append_singleton_ne_of_isPre name hbr
                              have hdp' : isPre (dest ++ [name]) p = false :=
                                not_isPre_of_append [name] hdp
                              cases hcs : fstat facc (src ++ [name]) with
                              | none =>
                                  simpa [hex, hcs] using
                                    ih false facc (src ++ [name]) (dest ++ [name]) p v
                                      hbr' hdne' h hdp' hhr htmp
                              | some cn =>
                                  cases cn with
                                  | file m c =>
                                      simpa [hex, hcs] using
                                        ih false facc (src ++ [name]) (dest ++ [name]) p v
                                          hbr' hdne' h hdp' hhr htmp
                                  | dir m =>
                                      simpa [hex, hcs] using
                                        ih true facc (src ++ [name]) (dest ++ [name]) p v
                                          hbr' hdne' h hdp' hhr htmp
                  exact hfold _ _ hfs1
      | false =>
          simp only [copyNode]
          cases hs : fstat fs src with
          | none => simpa using hv
          | some srcInfo =>
              have htnp : isPre (tmpPath dest) p = false :=
                not_isPre_tmpPath hbr hdne htmp
              have htne : tmpPath dest ≠ p := tmpPath_ne hbr hdne htmp
              have hdnep : dest ≠ p := ne_of_not_isPre hdp
              have hbfp : fstat (backupFileBeforeOverwrite cfg now fs dest) p =
                  some v :=
                backupFileBeforeOverwrite_pres cfg now fs hbd hv hdp hhr
              cases srcInfo with
              | dir m =>
                  cases hd : fstat fs dest with
                  | none =>
                      simpa using
                        ih true fs src dest p v hbr hdne hv hdp hhr htmp
                  | some destInfo =>
                      cases destInfo with
                      | file dm dc =>
                          by_cases hsk : (m < dm ∨ m = dm)
                          · simpa [FNode.mtime, hsk] using hv
                          · simpa [FNode.mtime, hsk, hbd] using
                              ih true (backupFileBeforeOverwrite cfg now fs dest)
                                src dest p v hbr hdne hbfp hdp hhr htmp
                      | dir dm =>
                          by_cases hsk : (m < dm ∨ m = dm)
                          · simpa [FNode.mtime, hsk] using hv
                          · simpa [FNode.mtime, hsk, hbd] using
                              ih true (backupFileBeforeOverwrite cfg now fs dest)
                                src dest p v hbr hdne hbfp hdp hhr htmp
              | file srcM content =>
                  have hfile : ∀ fs1 : Fs, fstat fs1 p = some v → ∀ fs4 : Fs,
                      fsRename (fsSet (mkdirAll now fs1 dest.dropLast)
                          (tmpPath dest) (FNode.file now content))
                        (tmpPath dest) dest = some fs4 →
                      fstat fs4 p = some v := by
                    intro fs1 h1 fs4 hren
                    rw [fstat_fsRename_other _ htnp hdp hren,
                      fstat_fsSet_ne _ _ htne]
                    exact mkdirAll_pres_some now fs1 _ h1
                  cases hd : fstat fs dest with
                  | none =>
                      simp only [FNode.mtime]
                      split
                      · simpa using hv
                      · split
                        · rw [fstat_fsRemoveAll_of_not _ htnp,
                            fstat_fsSet_ne _ _ htne]
                          exact mkdirAll_pres_some now fs _ hv
                        · rename_i fs4 hren
                          have h4 := hfile fs hv fs4 hren
                          split
                          · rw [fstat_fsSet_ne _ _ hdnep]; exact h4
                          · rw [fstat_fsSet_ne _ _ hdnep]; exact h4
                          · exact h4
                  | some destInfo =>
                      cases destInfo with
                      | file dm dc =>
                          by_cases hsk : (srcM < dm ∨ srcM = dm)
                          · simpa [FNode.mtime, hsk] using hv
                          · simp [FNode.mtime, hsk, hbd]
                            split
                            · rw [fstat_fsRemoveAll_of_not _ htnp,
                                fstat_fsSet_ne _ _ htne]
                              exact mkdirAll_pres_some now _ _ hbfp
                            · rename_i fs4 hren
                              have h4 := hfile _ hbfp fs4 hren
                              split
                              · rw [fstat_fsSet_ne _ _ hdnep]; exact h4
                              · rw [fstat_fsSet_ne _ _ hdnep]; exact h4
                              · exact h4
                      | dir dm =>
                          by_cases hsk : (srcM < dm ∨ srcM = dm)
                          · simpa [FNode.mtime, hsk] using hv
                          · simp [FNode.mtime, hsk, hbd]
                            split
                            · rw [fstat_fsRemoveAll_of_not _ htnp,
                                fstat_fsSet_ne _ _ htne]
                              exact mkdirAll_pres_some now _ _ hbfp
                            · rename_i fs4 hren
                              have h4 := hfile _ hbfp fs4 hren
                              split
                              · rw [fstat_fsSet_ne _ _ hdnep]; exact h4
                              · rw [fstat_fsSet_ne _ _ hdnep]; exact h4
                              · exact h4

theorem append_ne_left {br rel : FPath} (h : rel ≠ []) : br ++ rel ≠ br := by
  intro he
  have : (br ++ rel).length = br.length := by rw [he]
  simp at this
  exact h this

theorem not_isPre_append_both {br a b : FPath} (h : isPre a b = false) :
    isPre (br ++ a) (br ++ b) = false := by
  rw [← Bool.not_eq_true] at h ⊢
  rw [isPre_iff] at h ⊢
  exact fun hp => h ((List.prefix_append_right_inj br).mp hp)

theorem isPre_antisymm {a b : FPath} (h1 : isPre a b = true)
    (h2 : isPre b a = true) : a = b := by
  rw [isPre_iff] at h1 h2
  exact h1.eq_of_length_le h2.length_le

theorem not_isPre_append_singleton (dest p : FPath) (name : String)
    (h : isPre p dest = true) : isPre (dest ++ [name]) p = false := by
  rw [← Bool.not_eq_true]
  intro hpre
  have h1 := ((isPre_iff _ _).mp hpre).length_le
  have h2 := ((isPre_iff _ _).mp h).length_le
  simp at h1
  omega

/-- The per-child copy fold of `copyDir` preserves an existing node at any
path `p` no child destination is an ancestor of. -/
theorem copyChildren_pres (cfg : Config) (excl : FPath → Bool) (now : Int)
    (hbd : cfg.BackupDirs = [cfg.BackupRoot]) (f : Nat) (src dest p : FPath)
    (v : FNode)
    (hbr : isPre cfg.BackupRoot dest = true) (hdne : dest ≠ cfg.BackupRoot)
    (hcp : ∀ name : String, isPre (dest ++ [name]) p = false)
    (hhr : isPre (histRoot cfg) p = false)
    (htmp : noTmp p ∨ isPre cfg.BackupRoot p = false) :
    ∀ (names : List String) (st : Fs × Option String),
    fstat st.1 p = some v →
    fstat ((names.foldl
      (fun (st : Fs × Option String) name =>
        match st with
        | (facc, some e) => (facc, some e)
        | (facc, none) =>
            if excl (src ++ [name]) then (facc, none)
            else
              match fstat facc (src ++ [name]) with
              | some (FNode.dir _) =>
                  let r := copyNode cfg excl now f true facc
                    (src ++ [name]) (dest ++ [name])
                  (r.1, r.2.2)
              | _ =>
                  let r := copyNode cfg excl now f false facc
                    (src ++ [name]) (dest ++ [name])
                  (r.1, r.2.2))
      st).1) p = some v := by
  intro names
  induction names with
  | nil => intro st h; exact h
  | cons name t iht =>
      intro st h
      simp only [List.foldl_cons]
      apply iht
      obtain ⟨facc, err⟩ := st
      cases err with
      | some e => exact h
      | none =>
          by_cases hex : excl (src ++ [name]) = true
          · simpa [hex] using h
          · have hbr' : isPre cfg.BackupRoot (dest ++ [name]) = true :=
              isPre_of_isPre_of_isPre hbr (isPre_append_right dest [name])
            have hdne' : dest ++ [name] ≠ cfg.BackupRoot :=
              append_singleton_ne_of_isPre name hbr
            have hdp' : isPre (dest ++ [name]) p = false := hcp name
            cases hcs : fstat facc (src ++ [name]) with
            | none =>
                simpa [hex, hcs] using
                  copyNode_pres cfg excl now hbd f false facc (src ++ [name])
                    (dest ++ [name]) p v hbr' hdne' h hdp' hhr htmp
            | some cn =>
                cases cn with
                | file m c =>
                    simpa [hex, hcs] using
                      copyNode_pres cfg excl now hbd f false facc (src ++ [name])
                        (dest ++ [name]) p v hbr' hdne' h hdp' hhr htmp
                | dir m =>
                    simpa [hex, hcs] using
                      copyNode_pres cfg excl now hbd f true facc (src ++ [name])
                        (dest ++ [name]) p v hbr' hdne' h hdp' hhr htmp

/-- Preservation of `notFile`: no path outside the destination subtree, the
history subtree and the temporary paths is turned into a file by
`copyFile`/`copyDir`. -/
theorem copyNode_notFile (cfg : Config) (excl : FPath → Bool) (now : Int)
    (hbd : cfg.BackupDirs = [cfg.BackupRoot]) :
    ∀ (fuel : Nat) (mode : Bool) (fs : Fs) (src dest p : FPath),
    isPre cfg.BackupRoot dest = true → dest ≠ cfg.BackupRoot →
    notFile fs p → isPre dest p = false →
    isPre (histRoot cfg) p = false →
    (noTmp p ∨ isPre cfg.BackupRoot p = false) →
    notFile (copyNode cfg excl now fuel mode fs src dest).1 p := by
  intro fuel
  induction fuel with
  | zero =>
      intro mode fs src dest p _ _ hnf _ _ _
      simpa [copyNode] using hnf
  | succ f ih =>
      intro mode fs src dest p hbr hdne hnf hdp hhr htmp
      cases mode with
      | true =>
          simp only [copyNode]
          have hfs1 : notFile (mkdirAll now fs dest) p :=
            mkdirAll_notFile now fs dest hnf
          cases hsrc : fstat (mkdirAll now fs dest) src with
          | none => simpa [hsrc] using hfs1
          | some srcInfo =>
              cases srcInfo with
              | file m c => simpa [hsrc] using hfs1
              | dir m =>
                  simp only [hsrc]
                  have hfold : ∀ (names : List String) (st : Fs × Option String),
                      notFile st.1 p →
                      notFile ((names.foldl
                        (fun (st : Fs × Option String) name =>
                          match st with
                          | (facc, some e) => (facc, some e)
                          | (facc, none) =>
                              if excl (src ++ [name]) then (facc, none)
                              else
                                match fstat facc (src ++ [name]) with
                                | some (FNode.dir _) =>
                                    let r := copyNode cfg excl now f true facc
                                      (src ++ [name]) (dest ++ [name])
                                    (r.1, r.2.2)
                                | _ =>
                                    let r := copyNode cfg excl now f false facc
                                      (src ++ [name]) (dest ++ [name])
                                    (r.1, r.2.2))
                        st).1) p := by
                    intro names
                    induction names with
                    | nil => intro st h; exact h
                    | cons name t iht =>
                        intro st h
                        simp only [List.foldl_cons]
                        apply iht
                        obtain ⟨facc, err⟩ := st
                        cases err with
                        | some e => exact h
                        | none =>
                            by_cases hex : excl (src ++ [name]) = true
                            · simpa [hex] using h
                            · have hbr' : isPre cfg.BackupRoot (dest ++ [name]) = true :=
                                isPre_of_isPre_of_isPre hbr (isPre_append_right dest [name])
                              have hdne' : dest ++ [name] ≠ cfg.BackupRoot :=
                                append_singleton_ne_of_isPre name hbr
                              have hdp' : isPre (dest ++ [name]) p = false :=
                                not_isPre_of_append [name] hdp
                              cases hcs : fstat facc (src ++ [name]) with
                              | none =>
                                  simpa [hex, hcs] using
                                    ih false facc (src ++ [name]) (dest ++ [name]) p
                                      hbr' hdne' h hdp' hhr htmp
                              | some cn =>
                                  cases cn with
                                  | file m c =>
                                      simpa [hex, hcs] using
                                        ih false facc (src ++ [name]) (dest ++ [name]) p
                                          hbr' hdne' h hdp' hhr htmp
                                  | dir m =>
                                      simpa [hex, hcs] using
                                        ih true facc (src ++ [name]) (dest ++ [name]) p
                                          hbr' hdne' h hdp' hhr htmp
                  exact hfold _ _ hfs1
      | false =>
          simp only [copyNode]
          cases hs : fstat fs src with
          | none => simpa using hnf
          | some srcInfo =>
              have htnp : isPre (tmpPath dest) p = false :=
                not_isPre_tmpPath hbr hdne htmp
              have htne : tmpPath dest ≠ p := tmpPath_ne hbr hdne htmp
              have hdnep : dest ≠ p := ne_of_not_isPre hdp
              have hbfp : notFile (backupFileBeforeOverwrite cfg now fs dest) p :=
                backupFileBeforeOverwrite_notFile cfg now fs hbd hnf hhr
              cases srcInfo with
              | dir m =>
                  cases hd : fstat fs dest with
                  | none =>
                      simpa using
                        ih true fs src dest p hbr hdne hnf hdp hhr htmp
                  | some destInfo =>
                      cases destInfo with
                      | file dm dc =>
                          by_cases hsk : (m < dm ∨ m = dm)
                          · simpa [FNode.mtime, hsk] using hnf
                          · simpa [FNode.mtime, hsk, hbd] using
                              ih true (backupFileBeforeOverwrite cfg now fs dest)
                                src dest p hbr hdne hbfp hdp hhr htmp
                      | dir dm =>
                          by_cases hsk : (m < dm ∨ m = dm)
                          · simpa [FNode.mtime, hsk] using hnf
                          · simpa [FNode.mtime, hsk, hbd] using
                              ih true (backupFileBeforeOverwrite cfg now fs dest)
                                src dest p hbr hdne hbfp hdp hhr htmp
              | file srcM content =>
                  have hfile : ∀ fs1 : Fs, notFile fs1 p → ∀ fs4 : Fs,
                      fsRename (fsSet (mkdirAll now fs1 dest.dropLast)
                          (tmpPath dest) (FNode.file now content))
                        (tmpPath dest) dest = some fs4 →
                      notFile fs4 p := by
                    intro fs1 h1 fs4 hren m c
                    rw [fstat_fsRename_other _ htnp hdp hren,
                      fstat_fsSet_ne _ _ htne]
                    exact mkdirAll_notFile now fs1 _ h1 m c
                  have hrm : ∀ fs1 : Fs, notFile fs1 p →
                      notFile (fsRemoveAll (fsSet (mkdirAll now fs1 dest.dropLast)
                        (tmpPath dest) (FNode.file now content)) (tmpPath dest)) p := by
                    intro fs1 h1 m c
                    rw [fstat_fsRemoveAll_of_not _ htnp, fstat_fsSet_ne _ _ htne]
                    exact mkdirAll_notFile now fs1 _ h1 m c
                  cases hd : fstat fs dest with
                  | none =>
                      simp only [FNode.mtime]
                      split
                      · simpa using hnf
                      · split
                        · exact hrm fs hnf
                        · rename_i fs4 hren
                          have h4 := hfile fs hnf fs4 hren
                          intro m c
                          split
                          · rw [fstat_fsSet_ne _ _ hdnep]; exact h4 m c
                          · rw [fstat_fsSet_ne _ _ hdnep]; exact h4 m c
                          · exact h4 m c
                  | some destInfo =>
                      cases destInfo with
                      | file dm dc =>
                          by_cases hsk : (srcM < dm ∨ srcM = dm)
                          · simpa [FNode.mtime, hsk] using hnf
                          · simp [FNode.mtime, hsk, hbd]
                            split
                            · exact hrm _ hbfp
                            · rename_i fs4 hren
                              have h4 := hfile _ hbfp fs4 hren
                              intro m c
                              split
                              · rw [fstat_fsSet_ne _ _ hdnep]; exact h4 m c
                              · rw [fstat_fsSet_ne _ _ hdnep]; exact h4 m c
                              · exact h4 m c
                      | dir dm =>
                          by_cases hsk : (srcM < dm ∨ srcM = dm)
                          · simpa [FNode.mtime, hsk] using hnf
                          · simp [FNode.mtime, hsk, hbd]
                            split
                            · exact hrm _ hbfp
                            · rename_i fs4 hren
                              have h4 := hfile _ hbfp fs4 hren
                              intro m c
                              split
                              · rw [fstat_fsSet_ne _ _ hdnep]; exact h4 m c
                              · rw [fstat_fsSet_ne _ _ hdnep]; exact h4 m c
                              · exact h4 m c

/-- `copyDir` establishes its destination: when the destination is absent on
entry, the directory is (re)created with the current time, and the children
copies leave the node at `dest` alone. -/
theorem copyDir_est (cfg : Config) (excl : FPath → Bool) (now : Int)
    (hbd : cfg.BackupDirs = [cfg.BackupRoot]) (fuel : Nat) (fs1 : Fs)
    (src dest : FPath)
    (hnone : fstat fs1 dest = none) (hdne0 : dest ≠ [])
    (hbr : isPre cfg.BackupRoot dest = true) (hdne : dest ≠ cfg.BackupRoot)
    (hhrd : isPre (histRoot cfg) dest = false) (hntd : noTmp dest) :
    fstat (copyNode cfg excl now (fuel + 1) true fs1 src dest).1 dest =
      some (FNode.dir now) := by
  simp only [copyNode]
  have h1 : fstat (mkdirAll now fs1 dest) dest = some (FNode.dir now) :=
    mkdirAll_self now fs1 hdne0 hnone
  have hcp : ∀ name : String, isPre (dest ++ [name]) dest = false :=
    fun name => not_isPre_append_singleton dest dest name (isPre_refl dest)
  cases hsrc : fstat (mkdirAll now fs1 dest) src with
  | none => simpa [hsrc] using h1
  | some si =>
      cases si with
      | file m c => simpa [hsrc] using h1
      | dir m =>
          simpa [hsrc] using
            copyChildren_pres cfg excl now hbd fuel src dest dest
              (FNode.dir now) hbr hdne hcp hhrd (Or.inl hntd) _ _ h1

/-- `copyFile` skips when the destination is at least as new as the source,
leaving the filesystem untouched. -/
theorem copyFile_skips (cfg : Config) (excl : FPath → Bool) (now : Int)
    (fuel : Nat) (fs : Fs) (src dest : FPath) (n d : FNode)
    (hs : fstat fs src = some n) (hd : fstat fs dest = some d)
    (hm : n.mtime ≤ d.mtime) :
    copyNode cfg excl now (fuel + 1) false fs src dest = (fs, true, none) := by
  have hcmp : n.mtime < d.mtime ∨ n.mtime = d.mtime := lt_or_eq_of_le hm
  simp [copyNode, hs, hd, hcmp]

/-- `copyFile` establishes its destination: whatever the outcome (skip, file
copy, or directory recursion — even one that errors inside), afterwards the
destination exists with a modification time at least the source's. -/
theorem copyFile_est (cfg : Config) (excl : FPath → Bool) (now : Int)
    (hbd : cfg.BackupDirs = [cfg.BackupRoot]) (hbrne : cfg.BackupRoot ≠ [])
    (fuel : Nat) (fs : Fs) (src dest : FPath) (n : FNode)
    (hs : fstat fs src = some n) (hm : n.mtime ≤ now)
    (hbr : isPre cfg.BackupRoot dest = true) (hdne : dest ≠ cfg.BackupRoot)
    (hhrd : isPre (histRoot cfg) dest = false) (hntd : noTmp dest) :
    ∃ d : FNode,
      fstat (copyNode cfg excl now (fuel + 2) false fs src dest).1 dest =
        some d ∧
      n.mtime ≤ d.mtime := by
  have hdne0 : dest ≠ [] := by
    intro he
    rw [he] at hbr
    have := List.prefix_nil.mp ((isPre_iff _ _).mp hbr)
    exact hbrne this
  simp only [copyNode]
  cases hd : fstat fs dest with
  | none =>
      cases n with
      | dir m =>
          refine ⟨FNode.dir now, ?_, by simpa [FNode.mtime] using hm⟩
          simpa [copyNode, hs] using
            copyDir_est cfg excl now hbd fuel fs src dest hd hdne0
              hbr hdne hhrd hntd
      | file srcM content =>
          have h2 : ∃ fs4, fsRename (fsSet (mkdirAll now fs dest.dropLast)
              (tmpPath dest) (FNode.file now content)) (tmpPath dest) dest =
              some fs4 := by
            unfold fsRename
            rw [fstat_fsSet_self]
            exact ⟨_, rfl⟩
          obtain ⟨fs4, hrs⟩ := h2
          have hd4 : fstat fs4 dest = some (FNode.file now content) :=
            fstat_fsRename_head _ _ _ _ hrs
          refine ⟨FNode.file srcM content, ?_, by simp [FNode.mtime]⟩
          simp [hs, hrs, hd4, fstat_fsSet_self]
  | some destInfo =>
      by_cases hsk : (n.mtime < destInfo.mtime ∨ n.mtime = destInfo.mtime)
      · refine ⟨destInfo, ?_, ?_⟩
        · simpa [hs, hsk] using hd
        · rcases hsk with h | h
          · exact le_of_lt h
          · exact le_of_eq h
      · have hrm : fstat (backupFileBeforeOverwrite cfg now fs dest) dest =
            none :=
          backupFileBeforeOverwrite_removes cfg now fs hbd hbrne hd hbr hhrd
        cases n with
        | dir m =>
            refine ⟨FNode.dir now, ?_, by simpa [FNode.mtime] using hm⟩
            simpa [copyNode, hs, hsk, hbd] using
              copyDir_est cfg excl now hbd fuel
                (backupFileBeforeOverwrite cfg now fs dest) src dest hrm hdne0
                hbr hdne hhrd hntd
        | file srcM content =>
            have h2 : ∃ fs4, fsRename (fsSet (mkdirAll now
                (backupFileBeforeOverwrite cfg now fs dest) dest.dropLast)
                (tmpPath dest) (FNode.file now content)) (tmpPath dest) dest =
                some fs4 := by
              unfold fsRename
              rw [fstat_fsSet_self]
              exact ⟨_, rfl⟩
            obtain ⟨fs4, hrs⟩ := h2
            have hd4 : fstat fs4 dest = some (FNode.file now content) :=
              fstat_fsRename_head _ _ _ _ hrs
            refine ⟨FNode.file srcM content, ?_, by simp [FNode.mtime]⟩
            simp [hs, hsk, hbd, hrs, hd4, fstat_fsSet_self]

/-- The per-entry fold of the copy stage preserves an existing node at any
path no entry's destination is an ancestor of. -/
theorem copyFold_pres (cfg : Config) (excl : FPath → Bool) (now : Int)
    (hbd : cfg.BackupDirs = [cfg.BackupRoot]) (fuel : Nat) (p : FPath)
    (v : FNode)
    (hhrp : isPre (histRoot cfg) p = false)
    (htp : noTmp p ∨ isPre cfg.BackupRoot p = false) :
    ∀ (files : List FileInfo) (st : Fs × Counters),
    (∀ e ∈ files, e.RelativePath ≠ []) →
    (∀ e ∈ files, isPre (cfg.BackupRoot ++ e.RelativePath) p = false) →
    fstat st.1 p = some v →
    fstat ((files.foldl
      (fun (st : Fs × Counters) file =>
        ((copyNode cfg excl now fuel false st.1 file.AbsPath
            (cfg.BackupRoot ++ file.RelativePath)).1,
         tally st.2
           (copyNode cfg excl now fuel false st.1 file.AbsPath
             (cfg.BackupRoot ++ file.RelativePath)).2.1
           (copyNode cfg excl now fuel false st.1 file.AbsPath
             (cfg.BackupRoot ++ file.RelativePath)).2.2))
      st).1) p = some v := by
  intro files
  induction files with
  | nil => intro st _ _ h; exact h
  | cons a t ihf =>
      intro st hrel hdp h
      simp only [List.foldl_cons]
      exact ihf _ (fun e' he' => hrel e' (by simp [he']))
        (fun e' he' => hdp e' (by simp [he']))
        (copyNode_pres cfg excl now hbd fuel false st.1 a.AbsPath
          (cfg.BackupRoot ++ a.RelativePath) p v (isPre_append_right _ _)
          (append_ne_left (hrel a (by simp))) h (hdp a (by simp)) hhrp htp)

/-- The per-entry fold of the copy stage preserves `notFile` at any path no
entry's destination is an ancestor of. -/
theorem copyFold_notFile (cfg : Config) (excl : FPath → Bool) (now : Int)
    (hbd : cfg.BackupDirs = [cfg.BackupRoot]) (fuel : Nat) (p : FPath)
    (hhrp : isPre (histRoot cfg) p = false)
    (htp : noTmp p ∨ isPre cfg.BackupRoot p = false) :
    ∀ (files : List FileInfo) (st : Fs × Counters),
    (∀ e ∈ files, e.RelativePath ≠ []) →
    (∀ e ∈ files, isPre (cfg.BackupRoot ++ e.RelativePath) p = false) →
    notFile st.1 p →
    notFile ((files.foldl
      (fun (st : Fs × Counters) file =>
        ((copyNode cfg excl now fuel false st.1 file.AbsPath
            (cfg.BackupRoot ++ file.RelativePath)).1,
         tally st.2
           (copyNode cfg excl now fuel false st.1 file.AbsPath
             (cfg.BackupRoot ++ file.RelativePath)).2.1
           (copyNode cfg excl now fuel false st.1 file.AbsPath
             (cfg.BackupRoot ++ file.RelativePath)).2.2))
      st).1) p := by
  intro files
  induction files with
  | nil => intro st _ _ h; exact h
  | cons a t ihf =>
      intro st hrel hdp h
      simp only [List.foldl_cons]
      exact ihf _ (fun e' he' => hrel e' (by simp [he']))
        (fun e' he' => hdp e' (by simp [he']))
        (copyNode_notFile cfg excl now hbd fuel false st.1 a.AbsPath
          (cfg.BackupRoot ++ a.RelativePath) p (isPre_append_right _ _)
          (append_ne_left (hrel a (by simp))) h (hdp a (by simp)) hhrp htp)

/-- After the per-entry fold of the copy stage, every entry's source is still
present and its destination exists with a modification time at least the
source's. -/
theorem copyFold_est (cfg : Config) (excl : FPath → Bool) (now : Int)
    (hbd : cfg.BackupDirs = [cfg.BackupRoot]) (hbrne : cfg.BackupRoot ≠ [])
    (hh : cfg.HistoryDir = []) (fuel : Nat) :
    ∀ (files : List FileInfo) (st : Fs × Counters),
    (∀ e ∈ files, ∃ n : FNode, fstat st.1 e.AbsPath = some n ∧ n.mtime ≤ now) →
    (∀ e ∈ files, e.RelativePath ≠ []) →
    (∀ e ∈ files, noTmp (cfg.BackupRoot ++ e.RelativePath)) →
    (∀ e ∈ files,
      isPre (histRoot cfg) (cfg.BackupRoot ++ e.RelativePath) = false) →
    (∀ e ∈ files, isPre cfg.BackupRoot e.AbsPath = false) →
    List.Pairwise (fun a b => isPre a.RelativePath b.RelativePath = false ∧
      isPre b.RelativePath a.RelativePath = false) files →
    ∀ e ∈ files, ∃ n d : FNode,
      fstat ((files.foldl
        (fun (st : Fs × Counters) file =>
          ((copyNode cfg excl now (fuel + 2) false st.1 file.AbsPath
              (cfg.BackupRoot ++ file.RelativePath)).1,
           tally st.2
             (copyNode cfg excl now (fuel + 2) false st.1 file.AbsPath
               (cfg.BackupRoot ++ file.RelativePath)).2.1
             (copyNode cfg excl now (fuel + 2) false st.1 file.AbsPath
               (cfg.BackupRoot ++ file.RelativePath)).2.2))
        st).1) e.AbsPath = some n ∧
      fstat ((files.foldl
        (fun (st : Fs × Counters) file =>
          ((copyNode cfg excl now (fuel + 2) false st.1 file.AbsPath
              (cfg.BackupRoot ++ file.RelativePath)).1,
           tally st.2
             (copyNode cfg excl now (fuel + 2) false st.1 file.AbsPath
               (cfg.BackupRoot ++ file.RelativePath)).2.1
             (copyNode cfg excl now (fuel + 2) false st.1 file.AbsPath
               (cfg.BackupRoot ++ file.RelativePath)).2.2))
        st).1) (cfg.BackupRoot ++ e.RelativePath) = some d ∧
      n.mtime ≤ d.mtime := by
  have hbrh : isPre cfg.BackupRoot (histRoot cfg) = true := by
    rw [histRoot_eq cfg hh]
    exact isPre_append_right _ _
  intro files
  induction files with
  | nil => intro st _ _ _ _ _ _ e he; cases he
  | cons a t ihf =>
      intro st hsrc hrel hnt hhrd hout hpw e he
      simp only [List.foldl_cons]
      obtain ⟨hpw1, hpw2⟩ := List.pairwise_cons.mp hpw
      obtain ⟨na, hna, hnam⟩ := hsrc a (by simp)
      have hbra : isPre cfg.BackupRoot (cfg.BackupRoot ++ a.RelativePath) =
          true := isPre_append_right _ _
      have hdnea : cfg.BackupRoot ++ a.RelativePath ≠ cfg.BackupRoot :=
        append_ne_left (hrel a (by simp))
      rcases List.mem_cons.mp he with he1 | he2
      · subst he1
        obtain ⟨d, hd, hdm⟩ := copyFile_est cfg excl now hbd hbrne fuel st.1
          e.AbsPath (cfg.BackupRoot ++ e.RelativePath) na hna hnam hbra hdnea
          (hhrd e (by simp)) (hnt e (by simp))
        have hsa : fstat ((copyNode cfg excl now (fuel + 2) false st.1
            e.AbsPath (cfg.BackupRoot ++ e.RelativePath)).1) e.AbsPath =
            some na :=
          copyNode_pres cfg excl now hbd (fuel + 2) false st.1 e.AbsPath
            (cfg.BackupRoot ++ e.RelativePath) e.AbsPath na hbra hdnea hna
            (not_isPre_of_append _ (hout e (by simp)))
            (not_isPre_of_isPre hbrh (hout e (by simp)))
            (Or.inr (hout e (by simp)))
        refine ⟨na, d, ?_, ?_, hdm⟩
        · exact copyFold_pres cfg excl now hbd (fuel + 2) e.AbsPath na
            (not_isPre_of_isPre hbrh (hout e (by simp)))
            (Or.inr (hout e (by simp))) t _
            (fun e' he' => hrel e' (by simp [he']))
            (fun e' _ => not_isPre_of_append _ (hout e (by simp))) hsa
        · exact copyFold_pres cfg excl now hbd (fuel + 2)
            (cfg.BackupRoot ++ e.RelativePath) d (hhrd e (by simp))
            (Or.inl (hnt e (by simp))) t _
            (fun e' he' => hrel e' (by simp [he']))
            (fun e' he' => not_isPre_append_both (hpw1 e' he').2) hd
      · refine ihf _ ?_ (fun e' he' => hrel e' (by simp [he']))
          (fun e' he' => hnt e' (by simp [he']))
          (fun e' he' => hhrd e' (by simp [he']))
          (fun e' he' => hout e' (by simp [he'])) hpw2 e he2
        intro e' he'
        obtain ⟨n', hn', hm'⟩ := hsrc e' (by simp [he'])
        exact ⟨n', copyNode_pres cfg excl now hbd (fuel + 2) false st.1
          a.AbsPath (cfg.BackupRoot ++ a.RelativePath) e'.AbsPath n' hbra hdnea
          hn' (not_isPre_of_append _ (hout e' (by simp [he'])))
          (not_isPre_of_isPre hbrh (hout e' (by simp [he'])))
          (Or.inr (hout e' (by simp [he']))), hm'⟩

/-- The orphan-cleanup walk leaves a target path alone when no ancestor of it
is a file, and keeps that ancestor invariant. -/
theorem cleanupWalk_pres_target (cfg : Config) (now : Int)
    (hbd : cfg.BackupDirs = [cfg.BackupRoot])
    (targets : List FPath) (p : FPath) (v : FNode)
    (hpt : p ∈ targets) (hhrp : isPre (histRoot cfg) p = false) :
    ∀ (fuel : Nat) (fs : Fs) (path : FPath),
    fstat fs p = some v →
    (∀ q, isPre q p = true → q ≠ p → notFile fs q) →
    fstat (cleanupWalk cfg now fuel fs targets (histRoot cfg) path) p =
      some v ∧
    (∀ q, isPre q p = true → q ≠ p →
      notFile (cleanupWalk cfg now fuel fs targets (histRoot cfg) path) q) := by
  intro fuel
  induction fuel with
  | zero => intro fs path h hanf; exact ⟨h, hanf⟩
  | succ f ihw =>
      intro fs path h hanf
      simp only [cleanupWalk]
      split
      · exact ⟨h, hanf⟩
      · split
        · exact ⟨h, hanf⟩
        · have hfold : ∀ (names : List String) (facc : Fs),
              fstat facc p = some v →
              (∀ q, isPre q p = true → q ≠ p → notFile facc q) →
              fstat (names.foldl (fun acc name =>
                cleanupWalk cfg now f acc targets (histRoot cfg)
                  (path ++ [name])) facc) p = some v ∧
              (∀ q, isPre q p = true → q ≠ p →
                notFile (names.foldl (fun acc name =>
                  cleanupWalk cfg now f acc targets (histRoot cfg)
                    (path ++ [name])) facc) q) := by
            intro names
            induction names with
            | nil => intro facc h1 h2; exact ⟨h1, h2⟩
            | cons nm tl ihn =>
                intro facc h1 h2
                simp only [List.foldl_cons]
                obtain ⟨h1', h2'⟩ := ihw facc (path ++ [nm]) h1 h2
                exact ihn _ h1' h2'
          exact hfold _ fs h hanf
      · rename_i m c heq
        split
        · exact ⟨h, hanf⟩
        · split
          · exact ⟨h, hanf⟩
          · split
            · rename_i hnt1 hnt2 hbrpath
              have hxp : isPre path p = false := by
                rw [← Bool.not_eq_true]
                intro hpp
                by_cases hpe : path = p
                · subst hpe; exact hnt1 hpt
                · exact hanf path hpp hpe m c heq
              have hbm : ∀ b ∈ cfg.BackupDirs,
                  isPre (handleHistoryDir cfg b) p = false := by
                intro b hb
                rw [hbd, List.mem_singleton] at hb
                subst hb
                exact hhrp
              constructor
              · exact cleanupBackupDirs_pres cfg now fs _ h hxp hbm
              · intro q hq hqne
                have hbmq : ∀ b ∈ cfg.BackupDirs,
                    isPre (handleHistoryDir cfg b) q = false := by
                  intro b hb
                  rw [hbd, List.mem_singleton] at hb
                  subst hb
                  rw [← Bool.not_eq_true]
                  intro hcon
                  have hc2 : isPre (histRoot cfg) p = true :=
                    isPre_of_isPre_of_isPre hcon hq
                  rw [hhrp] at hc2
                  cases hc2
                exact cleanupBackupDirs_notFile cfg now fs _
                  (fun m' c' => hanf q hq hqne m' c') hbmq
            · exact ⟨h, hanf⟩

/-- The orphan-cleanup walk never changes a node outside the backup root. -/
theorem cleanupWalk_outside (cfg : Config) (now : Int)
    (hbd : cfg.BackupDirs = [cfg.BackupRoot]) (hh : cfg.HistoryDir = [])
    (targets : List FPath) (p : FPath) (v : FNode)
    (hbrp : isPre cfg.BackupRoot p = false) :
    ∀ (fuel : Nat) (fs : Fs) (path : FPath),
    fstat fs p = some v →
    fstat (cleanupWalk cfg now fuel fs targets (histRoot cfg) path) p =
      some v := by
  have hbrh : isPre cfg.BackupRoot (histRoot cfg) = true := by
    rw [histRoot_eq cfg hh]; exact isPre_append_right _ _
  intro fuel
  induction fuel with
  | zero => intro fs path h; exact h
  | succ f ihw =>
      intro fs path h
      simp only [cleanupWalk]
      split
      · exact h
      · split
        · exact h
        · have hfold : ∀ (names : List String) (facc : Fs),
              fstat facc p = some v →
              fstat (names.foldl (fun acc name =>
                cleanupWalk cfg now f acc targets (histRoot cfg)
                  (path ++ [name])) facc) p = some v := by
            intro names
            induction names with
            | nil => intro facc h1; exact h1
            | cons nm tl ihn =>
                intro facc h1
                simp only [List.foldl_cons]
                exact ihn _ (ihw facc (path ++ [nm]) h1)
          exact hfold _ fs h
      · split
        · exact h
        · split
          · exact h
          · split
            · rename_i hbrpath
              have hxp : isPre path p = false :=
                not_isPre_of_isPre hbrpath hbrp
              have hbm : ∀ b ∈ cfg.BackupDirs,
                  isPre (handleHistoryDir cfg b) p = false := by
                intro b hb
                rw [hbd, List.mem_singleton] at hb
                subst hb
                exact not_isPre_of_isPre hbrh hbrp
              exact cleanupBackupDirs_pres cfg now fs _ h hxp hbm
            · exact h

/-- When every entry's destination is already at least as new as its source,
the copy fold leaves the filesystem unchanged and counts every entry as
skipped. -/
theorem allSkip_fold (cfg : Config) (excl : FPath → Bool) (now : Int)
    (fuel : Nat) :
    ∀ (files : List FileInfo) (fs : Fs) (c : Counters),
    (∀ e ∈ files, ∃ n d : FNode, fstat fs e.AbsPath = some n ∧
      fstat fs (cfg.BackupRoot ++ e.RelativePath) = some d ∧
      n.mtime ≤ d.mtime) →
    files.foldl
      (fun (st : Fs × Counters) file =>
        ((copyNode cfg excl now (fuel + 1) false st.1 file.AbsPath
            (cfg.BackupRoot ++ file.RelativePath)).1,
         tally st.2
           (copyNode cfg excl now (fuel + 1) false st.1 file.AbsPath
             (cfg.BackupRoot ++ file.RelativePath)).2.1
           (copyNode cfg excl now (fuel + 1) false st.1 file.AbsPath
             (cfg.BackupRoot ++ file.RelativePath)).2.2))
      (fs, c) =
    (fs, ⟨c.copied, c.skipped + files.length, c.errors,
      c.total + files.length⟩) := by
  intro files
  induction files with
  | nil => intro fs c _; simp
  | cons a t ihf =>
      intro fs c hall
      obtain ⟨n, d, hn, hd, hm⟩ := hall a (by simp)
      have hskip := copyFile_skips cfg excl now fuel fs a.AbsPath
        (cfg.BackupRoot ++ a.RelativePath) n d hn hd hm
      simp only [List.foldl_cons, hskip]
      rw [ihf fs (tally c true none) (fun e' he' => hall e' (by simp [he']))]
      have ht : tally c true none =
          ⟨c.copied, c.skipped + 1, c.errors, c.total + 1⟩ := by
        simp [tally]
      rw [ht]
      simp only [List.length_cons, Prod.mk.injEq, Counters.mk.injEq]
      exact ⟨trivial, trivial, by omega, trivial, by omega⟩

/-- Claim C3 (amended) — running the copy stage a second time over the same
stream of discovered entries, with no change to any source between the two
runs, makes the second run report `copied = 0` and `skipped = total`,
provided every entry's source exists when it is processed (a vanished source
is tallied as an error instead, see the counterexample) and the stream is
well formed: sources lie outside the backup root, relative paths are
nonempty, pairwise prefix-free, free of `.tmp` segments and outside the
history subtree, no destination has a pre-existing file as a strict
ancestor, and no source carries a modification time in the future. -/
theorem C3_second_run_all_skipped
    (cfg1 cfg2 : Config) (excl1 excl2 : FPath → Bool) (now1 now2 : Int)
    (fuel1 fuel2 : Nat) (fs0 : Fs) (files : List FileInfo)
    (hbd1 : cfg1.BackupDirs = [cfg1.BackupRoot])
    (hh1 : cfg1.HistoryDir = [])
    (hbrne : cfg1.BackupRoot ≠ [])
    (hbr2 : cfg2.BackupRoot = cfg1.BackupRoot)
    (hf1 : 2 ≤ fuel1) (hf2 : 1 ≤ fuel2)
    (hsrc : ∀ e ∈ files, ∃ n : FNode,
      fstat fs0 e.AbsPath = some n ∧ n.mtime ≤ now1)
    (hrel : ∀ e ∈ files, e.RelativePath ≠ [])
    (hnt : ∀ e ∈ files, noTmp (cfg1.BackupRoot ++ e.RelativePath))
    (hhrd : ∀ e ∈ files,
      isPre (histRoot cfg1) (cfg1.BackupRoot ++ e.RelativePath) = false)
    (hout : ∀ e ∈ files, isPre cfg1.BackupRoot e.AbsPath = false)
    (hanf : ∀ e ∈ files, ∀ q,
      isPre q (cfg1.BackupRoot ++ e.RelativePath) = true →
      q ≠ cfg1.BackupRoot ++ e.RelativePath → notFile fs0 q)
    (hpw : List.Pairwise (fun a b =>
      isPre a.RelativePath b.RelativePath = false ∧
      isPre b.RelativePath a.RelativePath = false) files) :
    (runCopyStream cfg2 excl2 now2 fuel2
        (runCopyStream cfg1 excl1 now1 fuel1 fs0 files).1 files).2 =
      ⟨0, files.length, 0, files.length⟩ := by
  obtain ⟨k1, rfl⟩ : ∃ k, fuel1 = k + 2 := ⟨fuel1 - 2, by omega⟩
  obtain ⟨k2, rfl⟩ : ∃ k, fuel2 = k + 1 := ⟨fuel2 - 1, by omega⟩
  have hrun1 : (runCopyStream cfg1 excl1 now1 (k1 + 2) fs0 files).1 =
      cleanupDeletedSrcFiles cfg1 now1
        ((files.foldl
          (fun (st : Fs × Counters) file =>
            ((copyNode cfg1 excl1 now1 (k1 + 2) false st.1 file.AbsPath
                (cfg1.BackupRoot ++ file.RelativePath)).1,
             tally st.2
               (copyNode cfg1 excl1 now1 (k1 + 2) false st.1 file.AbsPath
                 (cfg1.BackupRoot ++ file.RelativePath)).2.1
               (copyNode cfg1 excl1 now1 (k1 + 2) false st.1 file.AbsPath
                 (cfg1.BackupRoot ++ file.RelativePath)).2.2))
          (fs0, ⟨0, 0, 0, 0⟩)).1)
        (files.map (fun f => cfg1.BackupRoot ++ f.RelativePath)) := by
    simp [runCopyStream, hbd1]
  have hready : ∀ e ∈ files, ∃ n d : FNode,
      fstat (runCopyStream cfg1 excl1 now1 (k1 + 2) fs0 files).1 e.AbsPath =
        some n ∧
      fstat (runCopyStream cfg1 excl1 now1 (k1 + 2) fs0 files).1
        (cfg2.BackupRoot ++ e.RelativePath) = some d ∧
      n.mtime ≤ d.mtime := by
    intro e he
    obtain ⟨n, d, hn, hd, hm⟩ := copyFold_est cfg1 excl1 now1 hbd1 hbrne hh1
      k1 files (fs0, ⟨0, 0, 0, 0⟩) hsrc hrel hnt hhrd hout hpw e he
    have hanff : ∀ q, isPre q (cfg1.BackupRoot ++ e.RelativePath) = true →
        q ≠ cfg1.BackupRoot ++ e.RelativePath →
        notFile ((files.foldl
          (fun (st : Fs × Counters) file =>
            ((copyNode cfg1 excl1 now1 (k1 + 2) false st.1 file.AbsPath
                (cfg1.BackupRoot ++ file.RelativePath)).1,
             tally st.2
               (copyNode cfg1 excl1 now1 (k1 + 2) false st.1 file.AbsPath
                 (cfg1.BackupRoot ++ file.RelativePath)).2.1
               (copyNode cfg1 excl1 now1 (k1 + 2) false st.1 file.AbsPath
                 (cfg1.BackupRoot ++ file.RelativePath)).2.2))
          (fs0, ⟨0, 0, 0, 0⟩)).1) q := by
      intro q hq hqne
      have hhrq : isPre (histRoot cfg1) q = false := by
        rw [← Bool.not_eq_true]
        intro hcon
        have hc2 := isPre_of_isPre_of_isPre hcon hq
        rw [hhrd e he] at hc2
        cases hc2
      have hntq : noTmp q := noTmp_of_isPre hq (hnt e he)
      have hdpq : ∀ e' ∈ files,
          isPre (cfg1.BackupRoot ++ e'.RelativePath) q = false := by
        intro e' he'
        by_cases hee : e' = e
        · subst hee
          rw [← Bool.not_eq_true]
          intro hcon
          exact hqne (isPre_antisymm hq hcon)
        · have hrr : isPre e'.RelativePath e.RelativePath = false :=
            (List.Pairwise.forall (fun a b h => ⟨h.2, h.1⟩) hpw he' he hee).1
          have hdd : isPre (cfg1.BackupRoot ++ e'.RelativePath)
              (cfg1.BackupRoot ++ e.RelativePath) = false :=
            not_isPre_append_both hrr
          rw [← Bool.not_eq_true]
          intro hcon
          have hc2 := isPre_of_isPre_of_isPre hcon hq
          rw [hdd] at hc2
          cases hc2
      exact copyFold_notFile cfg1 excl1 now1 hbd1 (k1 + 2) q hhrq
        (Or.inl hntq) files _ hrel hdpq (hanf e he q hq hqne)
    refine ⟨n, d, ?_, ?_, hm⟩
    · rw [hrun1]
      exact cleanupWalk_outside cfg1 now1 hbd1 hh1 _ e.AbsPath n
        (hout e he) _ _ _ hn
    · rw [hbr2, hrun1]
      exact (cleanupWalk_pres_target cfg1 now1 hbd1 _
        (cfg1.BackupRoot ++ e.RelativePath) d
        (List.mem_map_of_mem (fun f => cfg1.BackupRoot ++ f.RelativePath) he)
        (hhrd e he) _ _ _ hd hanff).1
  revert hready
  generalize (runCopyStream cfg1 excl1 now1 (k1 + 2) fs0 files).1 = FS2
  intro hready
  have hrun2 : (runCopyStream cfg2 excl2 now2 (k2 + 1) FS2 files).2 =
      (files.foldl
        (fun (st : Fs × Counters) file =>
          ((copyNode cfg2 excl2 now2 (k2 + 1) false st.1 file.AbsPath
              (cfg2.BackupRoot ++ file.RelativePath)).1,
           tally st.2
             (copyNode cfg2 excl2 now2 (k2 + 1) false st.1 file.AbsPath
               (cfg2.BackupRoot ++ file.RelativePath)).2.1
             (copyNode cfg2 excl2 now2 (k2 + 1) false st.1 file.AbsPath
               (cfg2.BackupRoot ++ file.RelativePath)).2.2))
        (FS2, ⟨0, 0, 0, 0⟩)).2 := by
    simp [runCopyStream]
  rw [hrun2, allSkip_fold cfg2 excl2 now2 k2 files FS2 ⟨0, 0, 0, 0⟩ hready]
  simp

/-- The configuration produced by `ParseFlags` + `ValidateConfig`: the backup
root is the only backup directory, history lives in a subdirectory of it,
and the timestamp is fixed for the run. -/
def stdCfg (ts : String) (keep : Nat) : Config :=
  { BackupRoot := ["backup"], BackupDirs := [["backup"]], BackupKeep := keep,
    BackupSubdir := "hist", HistoryDir := [], Timestamp := ts }

/-! ### Claim C1: retention pruning -/

/-- C1 scenario, run 1: the destination `backup/test.txt` is versioned out
with `keep = 1` (the move-then-prune sequence of
`CleanupDeletedSrcFiles`, lines 90–96). -/
def c1Run1 : Fs :=
  cleanupBackupDirs (stdCfg "20240101-000000" 1) 100
    [(["backup"], FNode.dir 0), (["backup", "test.txt"], FNode.file 10 "v1")]
    ["backup", "test.txt"] ["test.txt"] [["backup"]]

/-- C1 scenario, run 2: the destination reappears (overwritten by a newer
source between the runs) and is versioned out again. -/
def c1Run2 : Fs :=
  cleanupBackupDirs (stdCfg "20240102-000000" 1) 200
    (fsSet c1Run1 ["backup", "test.txt"] (FNode.file 20 "v2"))
    ["backup", "test.txt"] ["test.txt"] [["backup"]]

/-- Claim C1 (code bug) — retention never deletes anything.  `moveToBackup`
stores a version at `destBase/timestamp/relPath`, but `pruneBackups` looks
for timestamp directories under `destBase/relPath`, which does not exist in
that layout, so the pruning pass always sees an empty list.  After two
successive overwrite-triggering runs with `keep = 1`, both version
directories survive (the claim demands exactly one): the history root holds
the timestamp directories of both runs, each still containing its version of
`test.txt`. -/
theorem C1_retention_never_prunes :
    fstat c1Run2
        ["backup", "hist", "20240101-000000", "20240101-000000", "test.txt"] =
      some (FNode.file 10 "v1") ∧
    fstat c1Run2
        ["backup", "hist", "20240102-000000", "20240102-000000", "test.txt"] =
      some (FNode.file 20 "v2") ∧
    childNames c1Run2 ["backup", "hist"] =
      ["20240101-000000", "20240102-000000"] := by
  decide

/-! ### Claim C8: the cleanup walk and the history subtree -/

/-- C8 scenario: a backup root whose history subtree holds one version
directory from an earlier run (timestamp `20240101-000000`), while the
current run's timestamp is `20240102-000000` and nothing is discovered. -/
def c8Fs : Fs :=
  [(["backup"], FNode.dir 0), (["backup", "hist"], FNode.dir 0),
   (["backup", "hist", "20240101-000000"], FNode.dir 0),
   (["backup", "hist", "20240101-000000", "20240101-000000"], FNode.dir 0),
   (["backup", "hist", "20240101-000000", "20240101-000000", "test.txt"],
     FNode.file 10 "v1")]

/-- The C8 cleanup run. -/
def c8Res : Fs :=
  cleanupDeletedSrcFiles (stdCfg "20240102-000000" 3) 200 c8Fs []

/-- Claim C8 (code bug) — the cleanup walk does *not* leave the history
subtree alone.  `CleanupDeletedSrcFiles` skips only
`HandleHistoryDir(BackupRoot)`, which includes the *current* run's
timestamp; a version directory written by an earlier run with an earlier
timestamp is walked like ordinary backup content, treated as an orphan, and
moved into the current run's history — the file disappears from its version
directory and reappears nested inside the new timestamp's subtree. -/
theorem C8_cleanup_rewrites_old_history :
    fstat c8Res
        ["backup", "hist", "20240101-000000", "20240101-000000", "test.txt"] =
      none ∧
    fstat c8Res
        ["backup", "hist", "20240102-000000", "20240102-000000", "hist",
         "20240101-000000", "20240101-000000", "test.txt"] =
      some (FNode.file 10 "v1") := by
  decide

/-! ### Claim C2: a vanished source is a copy error, not a no-op -/

/-- Claim C2 (amended) — an entry whose source cannot be stat'ed produces a
`source stat failed` error outcome, and a stream consisting of that entry
finishes with `errors = 1` (not with a silent no-op): the vanished source
*is* added to the error counter. -/
theorem C2_vanished_source_is_error (cfg : Config) (excl : FPath → Bool)
    (now : Int) (fuel : Nat) (fs : Fs) (e : FileInfo)
    (h : fstat fs e.AbsPath = none) (hf : 0 < fuel) :
    copyNode cfg excl now fuel false fs e.AbsPath
        (cfg.BackupRoot ++ e.RelativePath) =
      (fs, false, some "source stat failed") ∧
    (runCopyStream cfg excl now fuel fs [e]).2 = ⟨0, 0, 1, 1⟩ := by
  match fuel, hf with
  | f + 1, _ =>
      have h1 : copyNode cfg excl now (f + 1) false fs e.AbsPath
          (cfg.BackupRoot ++ e.RelativePath) =
          (fs, false, some "source stat failed") := by
        simp [copyNode, h]
      refine ⟨h1, ?_⟩
      simp [runCopyStream, h1, tally]

/-- Witness for C2 (amended) at a concrete empty filesystem. -/
theorem C2_vanished_source_is_error_witness :
    fstat ([] : Fs) ["srcroot", "gone.txt"] = none ∧
      (copyNode (stdCfg "20240102-000000" 3) (fun _ => false) 100 5 false []
          ["srcroot", "gone.txt"] (["backup"] ++ ["gone.txt"]) =
        ([], false, some "source stat failed") ∧
      (runCopyStream (stdCfg "20240102-000000" 3) (fun _ => false) 100 5 []
          [⟨["srcroot", "gone.txt"], ["gone.txt"], ["srcroot"]⟩]).2 =
        ⟨0, 0, 1, 1⟩) :=
  ⟨by decide,
    C2_vanished_source_is_error (stdCfg "20240102-000000" 3) (fun _ => false)
      100 5 [] ⟨["srcroot", "gone.txt"], ["gone.txt"], ["srcroot"]⟩
      (by decide) (by decide)⟩

/-- Counterexample to claim C2 as stated: a stream holding one entry whose
source does not exist reports `errors = 1` — the vanished source is counted
as a copy error (the repository's own test expects exactly this), not
treated as a no-op. -/
theorem C2_vanished_source_counterexample :
    (runCopyStream (stdCfg "20240102-000000" 3) (fun _ => false) 100 5 []
        [⟨["srcroot", "gone.txt"], ["gone.txt"], ["srcroot"]⟩]).2.errors = 1 := by
  decide

/-! ### Claim C4: a not-strictly-older destination is skipped untouched -/

/-- Claim C4 — when the destination exists and its modification time is not
strictly older than the source's, the entry is skipped: the filesystem is
returned unchanged (so the destination is untouched and no backup version is
created), and a stream holding that entry reports
`copied = 0, skipped = 1`. -/
theorem C4_not_older_destination_skips (cfg : Config) (excl : FPath → Bool)
    (now : Int) (fuel : Nat) (fs : Fs) (e : FileInfo)
    (srcInfo destInfo : FNode)
    (hs : fstat fs e.AbsPath = some srcInfo)
    (hd : fstat fs (cfg.BackupRoot ++ e.RelativePath) = some destInfo)
    (hm : srcInfo.mtime ≤ destInfo.mtime) (hf : 0 < fuel) :
    copyNode cfg excl now fuel false fs e.AbsPath
        (cfg.BackupRoot ++ e.RelativePath) = (fs, true, none) ∧
    (runCopyStream cfg excl now fuel fs [e]).2 = ⟨0, 1, 0, 1⟩ := by
  match fuel, hf with
  | f + 1, _ =>
      have hcmp : srcInfo.mtime < destInfo.mtime ∨ srcInfo.mtime = destInfo.mtime :=
        lt_or_eq_of_le hm
      have h1 : copyNode cfg excl now (f + 1) false fs e.AbsPath
          (cfg.BackupRoot ++ e.RelativePath) = (fs, true, none) := by
        simp [copyNode, hs, hd, hcmp]
      refine ⟨h1, ?_⟩
      simp [runCopyStream, h1, tally]

/-- Witness for C4: `backup/test.txt` (mtime 10) is newer than the source
(mtime 5); the run reports `skipped = 1, copied = 0` and changes nothing. -/
theorem C4_not_older_destination_skips_witness :
    (copyNode (stdCfg "20240102-000000" 3) (fun _ => false) 100 5 false
        [(["srcroot", "test.txt"], FNode.file 5 "new"),
         (["backup", "test.txt"], FNode.file 10 "old")]
        ["srcroot", "test.txt"] (["backup"] ++ ["test.txt"]) =
      ([(["srcroot", "test.txt"], FNode.file 5 "new"),
        (["backup", "test.txt"], FNode.file 10 "old")], true, none)) ∧
    (runCopyStream (stdCfg "20240102-000000" 3) (fun _ => false) 100 5
        [(["srcroot", "test.txt"], FNode.file 5 "new"),
         (["backup", "test.txt"], FNode.file 10 "old")]
        [⟨["srcroot", "test.txt"], ["test.txt"], ["srcroot"]⟩]).2 =
      ⟨0, 1, 0, 1⟩ :=
  C4_not_older_destination_skips (stdCfg "20240102-000000" 3) (fun _ => false)
    100 5 _ ⟨["srcroot", "test.txt"], ["test.txt"], ["srcroot"]⟩
    (FNode.file 5 "new") (FNode.file 10 "old")
    (by decide) (by decide) (by decide) (by decide)

/-! ### Claim C10: the counters partition the received entries -/

theorem counters_foldl (f : Fs → FileInfo → Fs × Bool × Option String)
    (files : List FileInfo) (fs : Fs) (c0 : Counters) :
    ((files.foldl
        (fun (st : Fs × Counters) file =>
          ((f st.1 file).1, tally st.2 (f st.1 file).2.1 (f st.1 file).2.2))
        (fs, c0)).2.copied +
      (files.foldl
        (fun (st : Fs × Counters) file =>
          ((f st.1 file).1, tally st.2 (f st.1 file).2.1 (f st.1 file).2.2))
        (fs, c0)).2.skipped +
      (files.foldl
        (fun (st : Fs × Counters) file =>
          ((f st.1 file).1, tally st.2 (f st.1 file).2.1 (f st.1 file).2.2))
        (fs, c0)).2.errors =
      c0.copied + c0.skipped + c0.errors + files.length) ∧
    (files.foldl
        (fun (st : Fs × Counters) file =>
          ((f st.1 file).1, tally st.2 (f st.1 file).2.1 (f st.1 file).2.2))
        (fs, c0)).2.total = c0.total + files.length := by
  induction files generalizing fs c0 with
  | nil => simp
  | cons file rest ih =>
      simp only [List.foldl_cons, List.length_cons]
      have hstep : ∀ sk err, (tally c0 sk err).copied + (tally c0 sk err).skipped +
          (tally c0 sk err).errors = c0.copied + c0.skipped + c0.errors + 1 ∧
          (tally c0 sk err).total = c0.total + 1 := by
        intro sk err
        cases err with
        | none => cases sk <;> simp [tally] <;> omega
        | some e => simp [tally]; omega
      obtain ⟨hs1, hs2⟩ := hstep (f fs file).2.1 (f fs file).2.2
      obtain ⟨ih1, ih2⟩ := ih (f fs file).1 (tally c0 (f fs file).2.1 (f fs file).2.2)
      constructor
      · rw [ih1, hs1]; omega
      · rw [ih2, hs2]; omega

/-- Claim C10 — when the stream has been drained, the final counters satisfy
`copied + skipped + errors = total` and `total` equals the number of entries
received: every consumed entry is tallied exactly once, as exactly one of
copied, skipped or error (cleanup never touches the counters). -/
theorem C10_counters_partition_entries (cfg : Config) (excl : FPath → Bool)
    (now : Int) (fuel : Nat) (fs : Fs) (files : List FileInfo) :
    ((runCopyStream cfg excl now fuel fs files).2.copied +
      (runCopyStream cfg excl now fuel fs files).2.skipped +
      (runCopyStream cfg excl now fuel fs files).2.errors =
      (runCopyStream cfg excl now fuel fs files).2.total) ∧
    (runCopyStream cfg excl now fuel fs files).2.total = files.length := by
  have h := counters_foldl
    (fun facc file => copyNode cfg excl now fuel false facc file.AbsPath
      (cfg.BackupRoot ++ file.RelativePath)) files fs ⟨0, 0, 0, 0⟩
  simp only [runCopyStream]
  refine ⟨?_, ?_⟩
  · rw [h.1, h.2]; simp
  · rw [h.2]; simp

/-! ### Claim C3: idempotence of the copy stage -/

/-- The C3 counterexample entry: a discovered entry whose source does not
exist (unchanged between the two runs). -/
def c3Entry : FileInfo :=
  ⟨["srcroot", "gone.txt"], ["gone.txt"], ["srcroot"]⟩

/-- Counterexample to claim C3 as stated: running the copy stage twice over
the same one-entry stream, with no change to any source file in between,
does *not* make the second run report `skipped = total` — an entry whose
source is absent errors in both runs, so the second run reports
`skipped = 0` with `total = 1`. -/
theorem C3_second_run_counterexample :
    ((runCopyStream (stdCfg "20240102-000000" 3) (fun _ => false) 200 5
        (runCopyStream (stdCfg "20240101-000000" 3) (fun _ => false) 100 5 []
          [c3Entry]).1
        [c3Entry]).2.copied = 0) ∧
    ((runCopyStream (stdCfg "20240102-000000" 3) (fun _ => false) 200 5
        (runCopyStream (stdCfg "20240101-000000" 3) (fun _ => false) 100 5 []
          [c3Entry]).1
        [c3Entry]).2.skipped = 0) ∧
    ((runCopyStream (stdCfg "20240102-000000" 3) (fun _ => false) 200 5
        (runCopyStream (stdCfg "20240101-000000" 3) (fun _ => false) 100 5 []
          [c3Entry]).1
        [c3Entry]).2.total = 1) := by
  decide

/-- Witness for C3 (amended): one file entry, source `srcroot/test.txt`
(mtime 5) copied into an empty backup root on the first run; the second run
reports `copied = 0`, `skipped = 1 = total`. -/
theorem C3_second_run_all_skipped_witness :
    (runCopyStream (stdCfg "20240102-000000" 3) (fun _ => false) 200 5
        (runCopyStream (stdCfg "20240101-000000" 3) (fun _ => false) 100 5
          [(["srcroot", "test.txt"], FNode.file 5 "new")]
          [⟨["srcroot", "test.txt"], ["test.txt"], ["srcroot"]⟩]).1
        [⟨["srcroot", "test.txt"], ["test.txt"], ["srcroot"]⟩]).2 =
      ⟨0, 1, 0, 1⟩ :=
  C3_second_run_all_skipped (stdCfg "20240101-000000" 3)
    (stdCfg "20240102-000000" 3) (fun _ => false) (fun _ => false) 100 200 5 5
    [(["srcroot", "test.txt"], FNode.file 5 "new")]
    [⟨["srcroot", "test.txt"], ["test.txt"], ["srcroot"]⟩]
    (by decide) (by decide) (by decide) (by decide) (by decide) (by decide)
    (by
      intro e he
      rw [List.mem_singleton] at he
      subst he
      exact ⟨FNode.file 5 "new", by decide, by decide⟩)
    (by decide)
    (by
      intro e he
      rw [List.mem_singleton] at he
      subst he
      intro s hs
      have hs2 : s ∈ ["backup", "test.txt"] := hs
      fin_cases hs2 <;> decide)
    (by decide) (by decide)
    (by
      intro e he q hq hqne
      rw [List.mem_singleton] at he
      subst he
      have hq3 : q <+: ["backup", "test.txt"] := (isPre_iff _ _).mp hq
      rw [← List.mem_inits] at hq3
      have hq2 : q = [] ∨ q = ["backup"] ∨ q = ["backup", "test.txt"] := by
        simpa using hq3
      rcases hq2 with rfl | rfl | rfl
      · intro m c hcon
        simp [fstat, List.find?] at hcon
      · intro m c hcon
        simp [fstat, List.find?] at hcon
      · exact absurd rfl hqne)
    (by simp)

/-! ### Claim C5: redundancy collapse (`FilterRedundantFiles`) -/

/-- First-occurrence deduplication of path keys, with an accumulator of keys
already seen: the key set of a Go map, enumerated in a deterministic
(first-occurrence) order.  The claims proved about `FilterRedundantFiles`
are insensitive to the enumeration order of Go's maps. -/
def dedupPaths : List FPath → List FPath → List FPath
  | _, [] => []
  | seen, x :: t =>
      if x ∈ seen then dedupPaths seen t else x :: dedupPaths (x :: seen) t

/-- The `dirInfo` record built by `FilterRedundantFiles` for a collapsed
directory: the repository root itself (with its base name as relative path)
when `dir` is empty, and `repoRoot/dir` (relative path
`Join(Rel(Dir(repoRoot), repoRoot), dir)`) otherwise. -/
def dirEntry (repoRoot dir : FPath) : FileInfo :=
  if dir = [] then
    { AbsPath := repoRoot, RelativePath := [lastSeg repoRoot],
      RepoRoot := repoRoot }
  else
    { AbsPath := repoRoot ++ dir,
      RelativePath := lastSeg repoRoot :: dir, RepoRoot := repoRoot }

/-- `FilterRedundantFiles` (`scanner.go`): group entries by repository; per
repository, count the entries directly inside each directory (`Dir` of the
path relative to the repository root, `"."` mapped to the root); every
directory with two or more entries that is not already a phase-1 ignored
directory replaces its entries by one directory-level record, all other
entries are kept.  Entries not lying under their repository root are dropped
(Go would compute a `../`-style relative path for them; no modelled scenario
contains such an entry), and map iteration is modelled in first-occurrence
order. -/
def filterRedundantFiles (files : List FileInfo)
    (ignoredDirs : FPath → Bool) : List FileInfo :=
  if files = [] then files
  else
    (dedupPaths [] (files.map (fun f => f.RepoRoot))).flatMap (fun repoRoot =>
      let repoFiles := files.filter (fun f => f.RepoRoot = repoRoot)
      let withDir := repoFiles.filterMap (fun f =>
        if isPre repoRoot f.AbsPath then
          some (((f.AbsPath.drop repoRoot.length).dropLast : FPath), f)
        else none)
      let dirKeys := dedupPaths [] (withDir.map (fun e => e.1))
      let dirsToReplace := dirKeys.filter (fun dir =>
        !(ignoredDirs (repoRoot ++ dir)) &&
          decide (2 ≤ (withDir.filter (fun e => e.1 = dir)).length))
      dirsToReplace.map (dirEntry repoRoot) ++
        (withDir.filter
          (fun e => !(decide (e.1 ∈ dirsToReplace)))).map (fun e => e.2))

/-- The per-file `(parent directory, entry)` table of one repository group
(abbreviates the `withDir` table of `filterRedundantFiles` when every entry
lies under the repository root). -/
def wdOf (r : FPath) (files : List FileInfo) : List (FPath × FileInfo) :=
  files.map (fun f => (((f.AbsPath.drop r.length).dropLast : FPath), f))

/-- The directories `filterRedundantFiles` collapses in one repository group
(abbreviates its `dirsToReplace` list). -/
def dtrOf (r : FPath) (files : List FileInfo)
    (ignoredDirs : FPath → Bool) : List FPath :=
  (dedupPaths [] ((wdOf r files).map (fun e => e.1))).filter
    (fun dir => !(ignoredDirs (r ++ dir)) &&
      decide (2 ≤ ((wdOf r files).filter (fun e => e.1 = dir)).length))

theorem mem_dedupPaths (x : FPath) :
    ∀ (seen l : List FPath), x ∈ dedupPaths seen l ↔ (x ∈ l ∧ x ∉ seen) := by
  intro seen l
  induction l generalizing seen with
  | nil => simp [dedupPaths]
  | cons a t ih =>
      simp only [dedupPaths]
      by_cases ha : a ∈ seen
      · rw [if_pos ha, ih]
        constructor
        · rintro ⟨h1, h2⟩
          exact ⟨List.mem_cons_of_mem _ h1, h2⟩
        · rintro ⟨h1, h2⟩
          rcases List.mem_cons.mp h1 with rfl | h1'
          · exact absurd ha h2
          · exact ⟨h1', h2⟩
      · rw [if_neg ha]
        constructor
        · intro h1
          rcases List.mem_cons.mp h1 with rfl | h1'
          · exact ⟨by simp, ha⟩
          · obtain ⟨hx1, hx2⟩ := (ih _).mp h1'
            refine ⟨by simp [hx1], fun hs => hx2 (by simp [hs])⟩
        · rintro ⟨h1, h2⟩
          by_cases hxa : x = a
          · exact hxa ▸ List.mem_cons_self a _
          · refine List.mem_cons_of_mem _ ((ih _).mpr ⟨?_, ?_⟩)
            · rcases List.mem_cons.mp h1 with rfl | h1'
              · exact absurd rfl hxa
              · exact h1'
            · intro hs
              rcases List.mem_cons.mp hs with rfl | hs'
              · exact hxa rfl
              · exact h2 hs'

theorem nodup_dedupPaths : ∀ (seen l : List FPath), (dedupPaths seen l).Nodup := by
  intro seen l
  induction l generalizing seen with
  | nil => simp [dedupPaths]
  | cons a t ih =>
      simp only [dedupPaths]
      by_cases ha : a ∈ seen
      · rw [if_pos ha]; exact ih _
      · rw [if_neg ha]
        refine List.nodup_cons.mpr ⟨?_, ih _⟩
        rw [mem_dedupPaths]
        rintro ⟨_, h2⟩
        exact h2 (by simp)

theorem count_eq_one_of_nodup_mem {α : Type} [DecidableEq α] {l : List α}
    {a : α} (h : l.Nodup) (hm : a ∈ l) : l.count a = 1 := by
  induction l with
  | nil => cases hm
  | cons b t ih =>
      obtain ⟨hb, ht⟩ := List.nodup_cons.mp h
      by_cases hab : a = b
      · subst hab
        rw [List.count_cons_self, List.count_eq_zero.mpr hb]
      · rcases List.mem_cons.mp hm with rfl | hmt
        · exact absurd rfl hab
        · rw [List.count_cons_of_ne hab, ih ht hmt]

theorem abs_decomp {r a : FPath} (h : isPre r a = true) :
    a = r ++ a.drop r.length := by
  obtain ⟨t, ht⟩ := (isPre_iff _ _).mp h
  rw [← ht, List.drop_left]

theorem dirEntry_inj (r : FPath) : Function.Injective (dirEntry r) := by
  intro a b hab
  by_cases ha : a = [] <;> by_cases hb : b = []
  · rw [ha, hb]
  · exfalso
    have h1 := congrArg FileInfo.AbsPath hab
    simp [dirEntry, ha, hb] at h1
  · exfalso
    have h1 := congrArg FileInfo.AbsPath hab
    simp [dirEntry, ha, hb] at h1
  · have h1 := congrArg FileInfo.AbsPath hab
    simp [dirEntry, ha, hb] at h1
    exact h1

theorem dedupPaths_tail (r : FPath) :
    ∀ l : List FPath, (∀ x ∈ l, x = r) → dedupPaths [r] l = [] := by
  intro l
  induction l with
  | nil => intro _; rfl
  | cons a t ih =>
      intro hl
      rw [show a = r from hl a (by simp)]
      simp only [dedupPaths, if_pos (List.mem_singleton.mpr rfl)]
      exact ih (fun x hx => hl x (by simp [hx]))

theorem dedupPaths_const (r : FPath) (l : List FPath) (hne : l ≠ [])
    (hl : ∀ x ∈ l, x = r) : dedupPaths [] l = [r] := by
  cases l with
  | nil => cases hne rfl
  | cons a t =>
      rw [show a = r from hl a (by simp)]
      simp only [dedupPaths, List.not_mem_nil, if_neg (fun h => h)]
      rw [dedupPaths_tail r t (fun x hx => hl x (by simp [hx]))]

theorem withDir_map (r : FPath) :
    ∀ l : List FileInfo, (∀ f ∈ l, isPre r f.AbsPath = true) →
    (l.filterMap (fun f =>
      if isPre r f.AbsPath then
        some (((f.AbsPath.drop r.length).dropLast : FPath), f)
      else none)) = wdOf r l := by
  intro l
  induction l with
  | nil => intro _; rfl
  | cons a t ih =>
      intro hl
      have hcond : (if isPre r a.AbsPath = true then
          some (((a.AbsPath.drop r.length).dropLast : FPath), a) else none) =
          some (((a.AbsPath.drop r.length).dropLast : FPath), a) :=
        if_pos (hl a (by simp))
      simp only [List.filterMap_cons, hcond, wdOf, List.map_cons]
      rw [← wdOf, ih (fun f hf => hl f (by simp [hf]))]

/-- `filterRedundantFiles` on a single-repository stream whose entries all
lie under the repository root. -/
theorem filterRedundant_single (files : List FileInfo)
    (ignoredDirs : FPath → Bool) (r : FPath) (hne : files ≠ [])
    (hrepo : ∀ f ∈ files, f.RepoRoot = r)
    (hunder : ∀ f ∈ files, isPre r f.AbsPath = true) :
    filterRedundantFiles files ignoredDirs =
      (dtrOf r files ignoredDirs).map (dirEntry r) ++
        ((wdOf r files).filter
          (fun e => !(decide (e.1 ∈ dtrOf r files ignoredDirs)))).map
          (fun e => e.2) := by
  have hkeys : dedupPaths [] (files.map (fun f => f.RepoRoot)) = [r] := by
    apply dedupPaths_const
    · simpa using hne
    · intro x hx
      obtain ⟨f, hf, hfx⟩ := List.mem_map.mp hx
      rw [← hfx]
      exact hrepo f hf
  have hrf : files.filter (fun f => f.RepoRoot = r) = files :=
    List.filter_eq_self.mpr (fun f hf => by simp [hrepo f hf])
  simp only [filterRedundantFiles, if_neg hne, hkeys, List.flatMap_cons,
    List.flatMap_nil, List.append_nil, hrf, withDir_map r files hunder]
  rw [← dtrOf]

/-- Claim C5 — within one repository, after redundancy collapse the
discovered-entry set contains exactly one directory-level entry and none of
the file entries for any directory that directly holds two or more ignored
files and was not already emitted as a phase-1 ignored directory; a
directory that directly holds exactly one ignored file keeps that file as a
leaf entry.  (Entries are assumed to lie strictly under the repository root
and to be mutually prefix-free, as the scanner produces them.) -/
theorem C5_redundancy_collapse (files : List FileInfo)
    (ignoredDirs : FPath → Bool) (r : FPath) (d : FPath)
    (hrepo : ∀ f ∈ files, f.RepoRoot = r)
    (hunder : ∀ f ∈ files, isPre r f.AbsPath = true ∧ f.AbsPath ≠ r)
    (hanc : ∀ f ∈ files, ∀ g ∈ files,
      isPre f.AbsPath g.AbsPath = true → f.AbsPath = g.AbsPath) :
    (2 ≤ (files.filter
        (fun f => (f.AbsPath.drop r.length).dropLast = d)).length →
      ignoredDirs (r ++ d) = false →
      (filterRedundantFiles files ignoredDirs).count (dirEntry r d) = 1 ∧
      ∀ f ∈ files, (f.AbsPath.drop r.length).dropLast = d →
        f ∉ filterRedundantFiles files ignoredDirs) ∧
    ((files.filter
        (fun f => (f.AbsPath.drop r.length).dropLast = d)).length = 1 →
      ∀ f ∈ files, (f.AbsPath.drop r.length).dropLast = d →
        f ∈ filterRedundantFiles files ignoredDirs) := by
  by_cases hne : files = []
  · subst hne
    constructor
    · intro h2
      simp at h2
    · intro h1
      simp at h1
  · have hchar := filterRedundant_single files ignoredDirs r hne hrepo
      (fun f hf => (hunder f hf).1)
    have hcountlink : ∀ d' : FPath,
        ((wdOf r files).filter (fun e => e.1 = d')).length =
          (files.filter
            (fun f => (f.AbsPath.drop r.length).dropLast = d')).length := by
      intro d'
      rw [wdOf, List.filter_map, List.length_map]
      rfl
    have hrelne : ∀ f ∈ files, f.AbsPath.drop r.length ≠ [] := by
      intro f hf hcon
      have hd := abs_decomp (hunder f hf).1
      rw [hcon, List.append_nil] at hd
      exact (hunder f hf).2 hd
    have hwitness : ∀ d' : FPath,
        2 ≤ (files.filter
          (fun f => (f.AbsPath.drop r.length).dropLast = d')).length →
        ∀ g ∈ files, g.AbsPath ≠ r ++ d' := by
      intro d' h2 g hg hcon
      obtain ⟨f', hf'⟩ := List.length_pos_iff_exists_mem.mp
        (show 0 < (files.filter
          (fun f => (f.AbsPath.drop r.length).dropLast = d')).length by omega)
      have hf'm := List.mem_of_mem_filter hf'
      have hf'd : (f'.AbsPath.drop r.length).dropLast = d' := by
        simpa using List.of_mem_filter hf'
      have hpre : isPre g.AbsPath f'.AbsPath = true := by
        rw [hcon, ← hf'd, isPre_iff]
        conv_rhs => rw [abs_decomp (hunder f' hf'm).1]
        exact (List.prefix_append_right_inj r).mpr (List.dropLast_prefix _)
      have heq := hanc g hg f' hf'm hpre
      rw [hcon, ← hf'd] at heq
      have hlen := congrArg List.length heq
      have hlen2 := congrArg List.length (abs_decomp (hunder f' hf'm).1)
      have hpos : 0 < (f'.AbsPath.drop r.length).length :=
        List.length_pos.mpr (hrelne f' hf'm)
      rw [List.length_append, List.length_dropLast] at hlen
      rw [List.length_append] at hlen2
      omega
    constructor
    · intro h2 hign
      have hdk : d ∈ dedupPaths [] ((wdOf r files).map (fun e => e.1)) := by
        rw [mem_dedupPaths]
        refine ⟨?_, by simp⟩
        obtain ⟨f, hf⟩ := List.length_pos_iff_exists_mem.mp
          (show 0 < (files.filter
            (fun f => (f.AbsPath.drop r.length).dropLast = d)).length by omega)
        have hfm := List.mem_of_mem_filter hf
        have hfd : (f.AbsPath.drop r.length).dropLast = d := by
          simpa using List.of_mem_filter hf
        rw [← hfd, wdOf]
        exact List.mem_map_of_mem _ (List.mem_map_of_mem _ hfm)
      have hdtr : d ∈ dtrOf r files ignoredDirs := by
        rw [dtrOf]
        refine List.mem_filter.mpr ⟨hdk, ?_⟩
        rw [hign, hcountlink d]
        simpa using h2
      constructor
      · rw [hchar, List.count_append]
        have hA : ((dtrOf r files ignoredDirs).map (dirEntry r)).count
            (dirEntry r d) = 1 := by
          rw [List.count_map_of_injective _ _ (dirEntry_inj r)]
          exact count_eq_one_of_nodup_mem
            (List.Nodup.filter _ (nodup_dedupPaths _ _)) hdtr
        have hK : (((wdOf r files).filter
            (fun e => !(decide (e.1 ∈ dtrOf r files ignoredDirs)))).map
            (fun e => e.2)).count (dirEntry r d) = 0 := by
          rw [List.count_eq_zero]
          intro hmem
          obtain ⟨e, he, heq⟩ := List.mem_map.mp hmem
          obtain ⟨g, hg, hge⟩ := List.mem_map.mp
            (show e ∈ wdOf r files from List.mem_of_mem_filter he)
          have hg2 : g = dirEntry r d := by
            rw [← heq, ← hge]
          by_cases hd0 : d = []
          · have h1 := congrArg FileInfo.AbsPath hg2
            rw [hd0] at h1
            simp [dirEntry] at h1
            exact (hunder g hg).2 h1
          · have h1 := congrArg FileInfo.AbsPath hg2
            simp [dirEntry, hd0] at h1
            exact hwitness d h2 g hg h1
        rw [hA, hK]
      · intro f hf hfd hmem
        rw [hchar] at hmem
        rcases List.mem_append.mp hmem with hmem | hmem
        · obtain ⟨d', hd'tr, heq⟩ := List.mem_map.mp hmem
          have hpred := List.of_mem_filter (by rw [dtrOf] at hd'tr; exact hd'tr)
          have h2' : 2 ≤ (files.filter
              (fun f => (f.AbsPath.drop r.length).dropLast = d')).length := by
            rw [← hcountlink d']
            have := (Bool.and_eq_true _ _).mp hpred
            simpa using this.2
          by_cases hd0 : d' = []
          · have h1 := congrArg FileInfo.AbsPath heq
            rw [hd0] at h1
            simp [dirEntry] at h1
            exact (hunder f hf).2 h1.symm
          · have h1 := congrArg FileInfo.AbsPath heq
            simp [dirEntry, hd0] at h1
            exact hwitness d' h2' f hf h1.symm
        · obtain ⟨e, he, heq⟩ := List.mem_map.mp hmem
          obtain ⟨g, hg, hge⟩ := List.mem_map.mp
            (show e ∈ wdOf r files from List.mem_of_mem_filter he)
          subst hge
          have hgf : g = f := heq
          subst hgf
          have hnotin := List.of_mem_filter he
          simp only [Bool.not_eq_true', decide_eq_false_iff_not] at hnotin
          apply hnotin
          show (g.AbsPath.drop r.length).dropLast ∈ dtrOf r files ignoredDirs
          rw [hfd]
          exact hdtr
    · intro h1 f hf hfd
      rw [hchar]
      apply List.mem_append_right
      have hdnot : (((f.AbsPath.drop r.length).dropLast : FPath)) ∉
          dtrOf r files ignoredDirs := by
        rw [hfd]
        intro hdtr
        have hpred := List.of_mem_filter (by rw [dtrOf] at hdtr; exact hdtr)
        have h2' : 2 ≤ (files.filter
            (fun f => (f.AbsPath.drop r.length).dropLast = d)).length := by
          rw [← hcountlink d]
          have := (Bool.and_eq_true _ _).mp hpred
          simpa using this.2
        omega
      have hewd : (((f.AbsPath.drop r.length).dropLast : FPath), f) ∈
          wdOf r files := List.mem_map_of_mem _ hf
      refine List.mem_map.mpr ⟨(((f.AbsPath.drop r.length).dropLast : FPath), f),
        List.mem_filter.mpr ⟨hewd, ?_⟩, rfl⟩
      simpa using hdnot

/-- Witness for C5: `repo/node_modules` holds two ignored files and is
collapsed into one directory entry replacing both, while `repo/single.txt`
(the only ignored file directly inside the repository root) is kept as a
leaf entry. -/
theorem C5_redundancy_collapse_witness :
    (filterRedundantFiles
        [⟨["repo", "node_modules", "a.js"], ["a"], ["repo"]⟩,
         ⟨["repo", "node_modules", "b.js"], ["b"], ["repo"]⟩,
         ⟨["repo", "single.txt"], ["s"], ["repo"]⟩]
        (fun _ => false)).count (dirEntry ["repo"] ["node_modules"]) = 1 ∧
    (⟨["repo", "node_modules", "a.js"], ["a"], ["repo"]⟩ : FileInfo) ∉
      filterRedundantFiles
        [⟨["repo", "node_modules", "a.js"], ["a"], ["repo"]⟩,
         ⟨["repo", "node_modules", "b.js"], ["b"], ["repo"]⟩,
         ⟨["repo", "single.txt"], ["s"], ["repo"]⟩]
        (fun _ => false) ∧
    (⟨["repo", "single.txt"], ["s"], ["repo"]⟩ : FileInfo) ∈
      filterRedundantFiles
        [⟨["repo", "node_modules", "a.js"], ["a"], ["repo"]⟩,
         ⟨["repo", "node_modules", "b.js"], ["b"], ["repo"]⟩,
         ⟨["repo", "single.txt"], ["s"], ["repo"]⟩]
        (fun _ => false) := by
  have hA := (C5_redundancy_collapse
    [⟨["repo", "node_modules", "a.js"], ["a"], ["repo"]⟩,
     ⟨["repo", "node_modules", "b.js"], ["b"], ["repo"]⟩,
     ⟨["repo", "single.txt"], ["s"], ["repo"]⟩]
    (fun _ => false) ["repo"] ["node_modules"]
    (by decide) (by decide) (by decide)).1 (by decide) rfl
  have hB := (C5_redundancy_collapse
    [⟨["repo", "node_modules", "a.js"], ["a"], ["repo"]⟩,
     ⟨["repo", "node_modules", "b.js"], ["b"], ["repo"]⟩,
     ⟨["repo", "single.txt"], ["s"], ["repo"]⟩]
    (fun _ => false) ["repo"] []
    (by decide) (by decide) (by decide)).2 (by decide)
  exact ⟨hA.1,
    hA.2 ⟨["repo", "node_modules", "a.js"], ["a"], ["repo"]⟩ (by decide)
      (by decide),
    hB ⟨["repo", "single.txt"], ["s"], ["repo"]⟩ (by decide) (by decide)⟩

end CopyIgnore
